import Mathlib

/-!
# Verification of the guide-creator pipeline

A shallow embedding of `src/guide_creator_flow/main.py` and
`src/guide_creator_flow/tools/tracking_tools.py`, together with proofs about
the embedded operations.

Strings are embedded as `String` / `List Char`.  Python character classes
(`\s`, `\w`, `str.lower`, `str.isspace`) are embedded on their ASCII
fragment; the counterexamples and witnesses below only use ASCII input.
Python floats are embedded as exact rationals (`ℚ`).  Side effects
(printing, file writes, timestamps) are dropped or made explicit parameters.
-/

namespace GuideCreator

/-- Python whitespace (`str.isspace` / regex `\s`), ASCII fragment:
space, tab, newline, carriage return, vertical tab, form feed. -/
def pyIsSpace (c : Char) : Bool :=
  c = ' ' || c = '\t' || c = '\n' || c = '\r' || c = '\x0b' || c = '\x0c'

/-- Python `str.lower`, ASCII fragment: maps `A`-`Z` to `a`-`z`
(this is exactly `Char.toLower`). -/
def asciiLower (c : Char) : Char := Char.toLower c

/-- Python regex `\w` (word character), ASCII fragment `[a-zA-Z0-9_]`
(stated on code points: `a`-`z` is 97-122, `A`-`Z` is 65-90, `0`-`9` is
48-57, `_` is 95). -/
def pyIsWord (c : Char) : Bool :=
  (97 ≤ c.toNat && c.toNat ≤ 122) || (65 ≤ c.toNat && c.toNat ≤ 90) ||
  (48 ≤ c.toNat && c.toNat ≤ 57) || c.toNat = 95

/-- The character class `[a-z0-9-]` that the specification asserts for the
filename slug (`-` is code point 45). -/
def claimSlugChar (c : Char) : Bool :=
  (97 ≤ c.toNat && c.toNat ≤ 122) || (48 ≤ c.toNat && c.toNat ≤ 57) ||
  c.toNat = 45

/-- The character class `[a-z0-9_-]` that the code actually guarantees for
the filename slug (underscore survives because Python `\w` keeps it). -/
def sourceSlugChar (c : Char) : Bool := claimSlugChar c || c.toNat = 95

/-- `str.lstrip()`: drop leading whitespace. -/
def pyStripLeft (cs : List Char) : List Char := cs.dropWhile pyIsSpace

/-- `str.rstrip()`: drop trailing whitespace. -/
def pyStripRight (cs : List Char) : List Char :=
  (cs.reverse.dropWhile pyIsSpace).reverse

/-- `str.strip()`: drop leading and trailing whitespace. -/
def pyStrip (cs : List Char) : List Char := pyStripRight (pyStripLeft cs)

/-! ## The token-cost estimator (`tracking_tools.py`, `TokenCostEstimator`)

Python floats are embedded as exact rationals. -/

/-- `TokenCostEstimator.MODEL_PRICING`: per-1K-token input and output prices. -/
def MODEL_PRICING : List (String × ℚ × ℚ) :=
  [("gpt-4o", (25/10000, 1/100)),
   ("gpt-4o-mini", (15/100000, 6/10000))]

/-- The mutable fields of a `TokenCostEstimator`. -/
structure EstimatorState where
  total_estimated_cost : ℚ
  call_count : ℕ
deriving DecidableEq, Repr

/-- `TokenCostEstimator.__init__`. -/
def EstimatorState.init : EstimatorState := ⟨0, 0⟩

/-- `TokenCostEstimator.estimate_tokens`: `len(text) // 4`. -/
def estimate_tokens (text : String) : ℕ := text.length / 4

/-- `TokenCostEstimator.estimate_call_cost`: returns the estimated cost of
one call and the updated estimator state.  An unknown model name returns
cost `0.0` with the state untouched (the Python early `return 0.0`). -/
def estimate_call_cost (model : String) (input_text output_text : String)
    (st : EstimatorState) : ℚ × EstimatorState :=
  match (MODEL_PRICING.find? (fun p => p.1 = model)) with
  | none => (0, st)
  | some (_, pin, pout) =>
    let input_tokens : ℕ := estimate_tokens input_text
    let output_tokens : ℕ := estimate_tokens output_text
    let cost : ℚ := (input_tokens : ℚ)/1000 * pin + (output_tokens : ℚ)/1000 * pout
    (cost, ⟨st.total_estimated_cost + cost, st.call_count + 1⟩)

/-! ## The performance tracker (`tracking_tools.py`, `PerformanceTracker`)

Wall-clock time is an explicit parameter; timestamps are rationals. -/

/-- One entry of `metrics["steps"]`. -/
structure StepData where
  name : String
  duration : ℚ
  result_size : ℕ
  timestamp : ℚ
deriving DecidableEq, Repr

/-- The mutable fields of a `PerformanceTracker` that `start_step`/`end_step`
touch: the recorded steps and the open-step start marker. -/
structure TrackerState where
  steps : List StepData
  current_step_start : Option ℚ
deriving DecidableEq, Repr

/-- `PerformanceTracker.__init__`: no steps, no open step. -/
def TrackerState.init : TrackerState := ⟨[], none⟩

/-- Python truthiness of `self.current_step_start`: `None` and `0.0` are falsy. -/
def startMarkerTruthy : Option ℚ → Bool
  | none => false
  | some t => t ≠ 0

/-- `PerformanceTracker.start_step`: records the current time as the start
marker (overwriting any previous one). -/
def start_step (tr : TrackerState) (now : ℚ) : TrackerState :=
  { tr with current_step_start := some now }

/-- `PerformanceTracker.end_step`: if a start marker is set (Python
`if self.current_step_start:`), append one step record and clear the marker;
otherwise do nothing. -/
def end_step (tr : TrackerState) (now : ℚ) (step_name : String)
    (result_size : ℕ) : TrackerState :=
  match tr.current_step_start with
  | none => tr
  | some t =>
    if t ≠ 0 then
      { steps := tr.steps ++ [⟨step_name, now - t, result_size, now⟩],
        current_step_start := none }
    else tr

/-! ## The filename builder (`main.py`, `create_filename`) -/

/-- `re.sub(r'[-\s]+', '-', s)`: replace every maximal run of hyphens and
whitespace by a single hyphen (a run of length `k` contributes its single
`-` at the run's last character). -/
def collapseHyphenRuns : List Char → List Char
  | [] => []
  | [c] => if c = '-' || pyIsSpace c then ['-'] else [c]
  | c :: d :: cs =>
    if c = '-' || pyIsSpace c then
      if d = '-' || pyIsSpace d then collapseHyphenRuns (d :: cs)
      else '-' :: collapseHyphenRuns (d :: cs)
    else c :: collapseHyphenRuns (d :: cs)

/-- `safe_topic.strip('-')`: remove leading and trailing hyphens. -/
def stripHyphens (l : List Char) : List Char :=
  ((l.dropWhile (fun c => c = '-')).reverse.dropWhile (fun c => c = '-')).reverse

/-- The length cap: `safe_topic[:50].rstrip('-')` when longer than 50. -/
def truncate50 (l : List Char) : List Char :=
  if l.length > 50 then ((l.take 50).reverse.dropWhile (fun c => c = '-')).reverse
  else l

/-- The slug part of `create_filename`: lower-case, keep only word
characters, whitespace and hyphens (`re.sub(r'[^\w\s-]', '', …)`), collapse
whitespace/hyphen runs to single hyphens, strip hyphens, truncate to 50
characters trimming trailing hyphens. -/
def safeTopic (topic : String) : List Char :=
  truncate50 (stripHyphens (collapseHyphenRuns
    ((topic.data.map asciiLower).filter
      (fun c => pyIsWord c || pyIsSpace c || c = '-'))))

/-- `create_filename(topic, audience, extension)`. -/
def create_filename (topic audience : String) (extension : String := "md") :
    String :=
  String.mk (safeTopic topic) ++ "-" ++ audience ++ "-guide." ++ extension

/-! ## The content cleaner (`main.py`, `clean_section_content`)

The three `re.sub` fence passes and the blank-line collapse are embedded as
fuel-structured left-to-right scanners implementing the regex engine's
behaviour on these patterns (leftmost match, greedy `\s*`, `MULTILINE`
anchors, zero-width `$`).  Fuel is the input length plus one; every scanner
step consumes at least one character, so the fuel never runs out. -/

/-- The first line of a text: everything before the first newline. -/
def firstLine (cs : List Char) : List Char := cs.takeWhile (fun c => c ≠ '\n')

/-- The remainder of `cs` after consuming its maximal leading whitespace
run up to and including the run's last newline: the continuation point of
a greedy `\s*` ending at a newline. -/
def afterNlRun (cs : List Char) : List Char :=
  let w := cs.takeWhile pyIsSpace
  (w.reverse.takeWhile (fun c => c ≠ '\n')).reverse ++ cs.drop w.length

/-- Greedy `\s*\n` at the head of `cs`: if the maximal whitespace run at the
head contains a newline, consume the run up to and including its last
newline and return the remainder; otherwise fail. -/
def dropGreedyWsNl (cs : List Char) : Option (List Char) :=
  if (cs.takeWhile pyIsSpace).contains '\n' then some (afterNlRun cs)
  else none

/-- One pass of `re.sub(r'^TAG\s*\n', '', content, flags=re.MULTILINE)`
(used with `TAG` = ```` ```markdown ```` and ```` ``` ````): at each line
start, if the tag followed by greedy `\s*\n` matches, delete it and rescan
at the following line start; otherwise copy the line. -/
def subOpenFuel (tag : List Char) : ℕ → List Char → List Char
  | 0, cs => cs
  | fuel+1, cs =>
    if cs.isEmpty then [] else
    match (if tag.isPrefixOf cs then dropGreedyWsNl (cs.drop tag.length) else none) with
    | some rest => subOpenFuel tag fuel rest
    | none =>
      match cs.dropWhile (fun c => c ≠ '\n') with
      | [] => cs
      | _ :: rs => cs.takeWhile (fun c => c ≠ '\n') ++ '\n' :: subOpenFuel tag fuel rs

/-- `re.sub(r'\n```\s*$', '', content, flags=re.MULTILINE)`: scanning left
to right, a newline followed by ```` ``` ```` and greedy `\s*` up to a `$`
position (end of string, or just before a newline) is deleted; `$` is
zero-width, so rescanning continues at that newline. -/
def subCloseFuel : ℕ → List Char → List Char
  | 0, cs => cs
  | _+1, [] => []
  | fuel+1, c :: cs =>
    if c = '\n' && ['`', '`', '`'].isPrefixOf cs then
      let rest := cs.drop 3
      let w := rest.takeWhile pyIsSpace
      if w.length = rest.length then []
      else if w.contains '\n' then
        subCloseFuel fuel ('\n' :: afterNlRun rest)
      else c :: subCloseFuel fuel cs
    else c :: subCloseFuel fuel cs

/-- `re.sub(r'\n\s*\n\s*\n', '\n\n', content)`: scanning left to right, a
newline whose following whitespace run contains at least two more newlines
matches (greedily, up to the run's last newline) and is replaced by two
newlines. -/
def collapseFuel : ℕ → List Char → List Char
  | 0, cs => cs
  | _+1, [] => []
  | fuel+1, c :: cs =>
    if c = '\n' && 2 ≤ (cs.takeWhile pyIsSpace).count '\n' then
      '\n' :: '\n' :: collapseFuel fuel (afterNlRun cs)
    else c :: collapseFuel fuel cs

/-- Whether the blank-line-collapse pattern `\n\s*\n\s*\n` matches anywhere
in the text: some newline is followed by a whitespace run containing at
least two more newlines. -/
def hasTriple : List Char → Bool
  | [] => false
  | c :: cs =>
    (c = '\n' && 2 ≤ (cs.takeWhile pyIsSpace).count '\n') || hasTriple cs

/-- First `re.sub` fence pass with its fuel. -/
def subOpen (tag : List Char) (cs : List Char) : List Char :=
  subOpenFuel tag (cs.length + 1) cs

/-- Second `re.sub` fence pass with its fuel. -/
def subClose (cs : List Char) : List Char := subCloseFuel (cs.length + 1) cs

/-- Blank-line collapse with its fuel. -/
def collapseBlank (cs : List Char) : List Char := collapseFuel (cs.length + 1) cs

/-- Remainder of `cs` after the first occurrence of `needle`
(`None` if absent): the `str.find`-style search underlying `.*X` chaining. -/
def afterFirst (needle : List Char) : List Char → Option (List Char)
  | [] => if needle.isEmpty then some [] else none
  | c :: cs =>
    if needle.isPrefixOf (c :: cs) then some ((c :: cs).drop needle.length)
    else afterFirst needle cs

/-- `cs` contains the given substrings in order (each after the previous
one's end): the matching semantics of a regex `X₁.*X₂.*…`. -/
def inOrder (cs : List Char) : List (List Char) → Bool
  | [] => true
  | nd :: nds =>
    match afterFirst nd cs with
    | some rest => inOrder rest nds
    | none => false

/-- The seven case-insensitive meta-comment regexes of
`clean_section_content`, each decomposed as a required literal prefix plus
literal substrings required in order (`^P.*X.*Y.*$` matches a line iff the
line starts with `P` and contains `X` then `Y` after it). -/
def metaPatterns : List (List Char × List (List Char)) :=
  [("this ".data, ["section".data, "maintains".data]),
   ("this ".data, ["version".data, "enhances".data]),
   ("this ".data, ["content".data, "provides".data]),
   ("this ".data, ["improved".data, "section".data]),
   ("the ".data,  ["section".data, "has been".data]),
   ("here".data,  ["improved".data, "version".data]),
   ("this ".data, ["revision".data])]

/-- Meta-comment test on an already stripped, lower-cased line. -/
def isMetaCore (l : List Char) : Bool :=
  metaPatterns.any (fun p => p.1.isPrefixOf l && inOrder (l.drop p.1.length) p.2)

/-- `re.match(pattern, line.strip(), re.IGNORECASE)` against the seven
meta-comment patterns. -/
def isMeta (line : List Char) : Bool :=
  isMetaCore ((pyStrip line).map asciiLower)

/-- `content.split('\n')` (never returns an empty list). -/
def splitNl : List Char → List (List Char)
  | [] => [[]]
  | c :: cs =>
    if c = '\n' then [] :: splitNl cs
    else
      match splitNl cs with
      | [] => [[c]]
      | l :: ls => (c :: l) :: ls

/-- `'\n'.join(lines)`. -/
def joinNl : List (List Char) → List Char
  | [] => []
  | [l] => l
  | l :: ls => l ++ '\n' :: joinNl ls

/-- Every line of a text is free of meta-comments. -/
def linesOk (u : List Char) : Prop := ∀ l ∈ splitNl u, isMeta l = false

/-- Every line after the first is free of meta-comments. -/
def tailLinesOk (u : List Char) : Prop :=
  ∀ l ∈ (splitNl u).tail, isMeta l = false

/-- The heading-promotion step: if the first line, stripped, starts with
`# ` but not `## `, prepend one `#` to it. -/
def promoteHeading : List (List Char) → List (List Char)
  | [] => []
  | l0 :: rest =>
    if "# ".data.isPrefixOf (pyStrip l0) && !("## ".data.isPrefixOf (pyStrip l0)) then
      ('#' :: l0) :: rest
    else l0 :: rest

/-- The three fence-stripping `re.sub` passes, in source order. -/
def fenceStripped (cs : List Char) : List Char :=
  subOpen "```".data (subClose (subOpen "```markdown".data cs))

/-- The meta-comment line filter: split into lines, drop meta-comment
lines, re-join. -/
def metaFiltered (cs : List Char) : List Char :=
  joinNl ((splitNl cs).filter (fun l => !(isMeta l)))

/-- `clean_section_content` on character lists: fence stripping, meta-line
removal, heading promotion on the stripped content, blank-line collapse,
final strip. -/
def cleanChars (cs : List Char) : List Char :=
  pyStrip (collapseBlank (joinNl (promoteHeading
    (splitNl (pyStrip (metaFiltered (fenceStripped cs)))))))

/-- `clean_section_content(content)`. -/
def clean_section_content (s : String) : String := String.mk (cleanChars s.data)

/-! ## Guide data model and compilation (`main.py`) -/

/-- The `Section` pydantic model. -/
structure GuideSection where
  title : String
  description : String
deriving DecidableEq, Repr

/-- The `GuideOutline` pydantic model. -/
structure GuideOutline where
  title : String
  introduction : String
  target_audience : String
  sections : List GuideSection
  conclusion : String
deriving DecidableEq, Repr

/-- `state.sections_content`: a Python dict from section title to content.
Insertion prepends; lookup finds the most recent binding. -/
def SectionsContent := List (String × String)

/-- `sections_content[title] = body`. -/
def dictInsert (m : List (String × String)) (k v : String) :
    List (String × String) := (k, v) :: m

/-- `sections_content.get(title, "")`. -/
def dictGet (m : List (String × String)) (k : String) : String :=
  match m.find? (fun p => p.1 = k) with
  | some p => p.2
  | none => ""

/-- The keys of `sections_content`. -/
def dictKeys (m : List (String × String)) : List String := m.map (·.1)

/-- The guide-compilation tail of `write_and_compile_guide`: title header,
introduction block, one stored body per outline section (in outline order,
missing titles default to `""`), conclusion block. -/
def compileGuide (outline : GuideOutline) (m : List (String × String)) :
    String :=
  (outline.sections.foldl
    (fun g s => g ++ dictGet m s.title ++ "\n\n")
    ("# " ++ outline.title ++ "\n\n" ++ "## Introduction\n\n" ++
      outline.introduction ++ "\n\n"))
  ++ "## Conclusion\n\n" ++ outline.conclusion ++ "\n\n"

/-- Concatenation of a list of strings, in order. -/
def concatAll : List String → String
  | [] => ""
  | s :: rest => s ++ concatAll rest

/-- The `previous_sections_text` built for one section of
`write_and_compile_guide`: the sentinel when no section is completed yet,
otherwise a header followed by, for each completed title in completion
order, the title as a `## ` heading and its stored body. -/
def previousSectionsText (completed : List String)
    (m : List (String × String)) : String :=
  if completed.isEmpty then "No previous sections written yet."
  else completed.foldl
    (fun acc t => acc ++ "## " ++ t ++ "\n\n" ++ dictGet m t ++ "\n\n")
    "# Previously Written Sections\n\n"

/-- One iteration of the section loop of `write_and_compile_guide`, over
the state `(completed_sections, sections_content)`: build the context,
run the content crew (the opaque collaborator `gen`, a function of the
section and the context), clean the result, store it under the section
title, append the title to `completed_sections`. -/
def sectionStep (gen : GuideSection → String → String)
    (st : List String × List (String × String)) (s : GuideSection) :
    List String × List (String × String) :=
  let ctx := previousSectionsText st.1 st.2
  let cleaned := clean_section_content (gen s ctx)
  (st.1 ++ [s.title], dictInsert st.2 s.title cleaned)

/-- The section loop, starting from no completed sections and an empty
`sections_content` (the `GuideCreatorState` defaults). -/
def runSections (gen : GuideSection → String → String)
    (sections : List GuideSection) :
    List String × List (String × String) :=
  sections.foldl (sectionStep gen) ([], [])

/-- The loop state after the first `i` sections of the outline. -/
def loopStateAt (gen : GuideSection → String → String)
    (outline : GuideOutline) (i : ℕ) :
    List String × List (String × String) :=
  runSections gen (outline.sections.take i)

/-- The context string passed to the agent-crew call for the section at
index `i` (0-based) of the outline. -/
def contextAt (gen : GuideSection → String → String)
    (outline : GuideOutline) (i : ℕ) : String :=
  previousSectionsText (loopStateAt gen outline i).1 (loopStateAt gen outline i).2

/-- A concrete agent-crew oracle used by witnesses. -/
def witGen : GuideSection → String → String :=
  fun s _ => "body of " ++ s.title

/-- A concrete two-section outline used by witnesses. -/
def witOutline : GuideOutline :=
  { title := "T", introduction := "I", target_audience := "aud",
    sections := [⟨"S1", "d1"⟩, ⟨"S2", "d2"⟩], conclusion := "C" }

/-! ## Theorems -/

theorem foldl_append_acc {α : Type} (l : List α) (f : α → String)
    (init : String) :
    l.foldl (fun g s => g ++ f s) init = init ++ concatAll (l.map f) := by
  induction l generalizing init with
  | nil => simp [concatAll]
  | cons a t ih =>
    simp only [List.foldl_cons, List.map_cons, concatAll]
    rw [ih, String.append_assoc]

/-- **C1.** The compiled guide document is exactly the concatenation of the
title line, the introduction block, each outline section's stored body in
outline order (each exactly once), and the conclusion block. -/
theorem compileGuide_eq_concat (outline : GuideOutline)
    (m : List (String × String)) :
    compileGuide outline m =
      "# " ++ outline.title ++ "\n\n" ++
      "## Introduction\n\n" ++ outline.introduction ++ "\n\n" ++
      concatAll (outline.sections.map (fun s => dictGet m s.title ++ "\n\n")) ++
      "## Conclusion\n\n" ++ outline.conclusion ++ "\n\n" := by
  unfold compileGuide
  have hf : (fun (g : String) (s : GuideSection) => g ++ dictGet m s.title ++ "\n\n")
      = (fun g s => g ++ (dictGet m s.title ++ "\n\n")) := by
    funext g s
    rw [String.append_assoc]
  rw [hf, foldl_append_acc]

/-- **C5.** For model `"gpt-4o-mini"` with a 4000-character input text and a
4000-character output text, `estimate_call_cost` estimates 1000 tokens for
each side (`characters // 4`) and returns a cost of
`1000/1000*0.00015 + 1000/1000*0.0006 = 0.00075` (floats embedded as exact
rationals). -/
theorem estimate_cost_mini_4000 (input output : String) (st : EstimatorState)
    (h1 : input.length = 4000) (h2 : output.length = 4000) :
    estimate_tokens input = 1000 ∧ estimate_tokens output = 1000 ∧
    (estimate_call_cost "gpt-4o-mini" input output st).1 =
      (1000 : ℚ)/1000 * 0.00015 + (1000 : ℚ)/1000 * 0.0006 ∧
    (estimate_call_cost "gpt-4o-mini" input output st).1 = 0.00075 := by
  have ht1 : estimate_tokens input = 1000 := by
    simp [estimate_tokens, h1]
  have ht2 : estimate_tokens output = 1000 := by
    simp [estimate_tokens, h2]
  have hd : (decide ("gpt-4o" = "gpt-4o-mini")) = false := by decide
  refine ⟨ht1, ht2, ?_, ?_⟩ <;>
  · simp only [estimate_call_cost, MODEL_PRICING, List.find?, ht1, ht2, hd]
    norm_num

/-- Witness for C5 at a concrete pair of 4000-character strings. -/
theorem estimate_cost_mini_4000_witness :
    (String.mk (List.replicate 4000 'a')).length = 4000 ∧
    (estimate_call_cost "gpt-4o-mini" (String.mk (List.replicate 4000 'a'))
      (String.mk (List.replicate 4000 'b')) EstimatorState.init).1 = 0.00075 :=
  ⟨by
    show (List.replicate 4000 'a').length = 4000
    rw [List.length_replicate],
   (estimate_cost_mini_4000 (String.mk (List.replicate 4000 'a'))
      (String.mk (List.replicate 4000 'b')) EstimatorState.init
      (by
        show (List.replicate 4000 'a').length = 4000
        rw [List.length_replicate])
      (by
        show (List.replicate 4000 'b').length = 4000
        rw [List.length_replicate])).2.2.2⟩

/-- **C6.** For every model name not present in the pricing table and every
pair of input and output texts, `estimate_call_cost` returns cost `0.0`
(and, being a total function, raises no error). -/
theorem unknown_model_zero_cost (model input output : String)
    (st : EstimatorState) (h : model ∉ MODEL_PRICING.map (fun p => p.1)) :
    (estimate_call_cost model input output st).1 = 0 := by
  have hf : MODEL_PRICING.find? (fun p => p.1 = model) = none := by
    rw [List.find?_eq_none]
    intro p hp
    simp only [decide_eq_true_eq]
    intro hc
    exact h (hc ▸ List.mem_map_of_mem (fun p => p.1) hp)
  simp [estimate_call_cost, hf]

/-- Witness for C6 at a concrete unknown model name. -/
theorem unknown_model_zero_cost_witness :
    "gpt-5" ∉ MODEL_PRICING.map (fun p => p.1) ∧
    (estimate_call_cost "gpt-5" "in" "out" EstimatorState.init).1 = 0 :=
  ⟨by decide,
   unknown_model_zero_cost "gpt-5" "in" "out" EstimatorState.init (by decide)⟩

/-- **C9.** Calling `estimate_call_cost` with an unknown model name leaves
the estimator state entirely unchanged: `total_estimated_cost` and
`call_count` keep their prior values, so the persisted `total_api_calls`
counts only calls with a known model name. -/
theorem unknown_model_state_unchanged (model input output : String)
    (st : EstimatorState) (h : model ∉ MODEL_PRICING.map (fun p => p.1)) :
    (estimate_call_cost model input output st).2 = st := by
  have hf : MODEL_PRICING.find? (fun p => p.1 = model) = none := by
    rw [List.find?_eq_none]
    intro p hp
    simp only [decide_eq_true_eq]
    intro hc
    exact h (hc ▸ List.mem_map_of_mem (fun p => p.1) hp)
  simp [estimate_call_cost, hf]

/-- Witness for C9 at a concrete unknown model name and state. -/
theorem unknown_model_state_unchanged_witness :
    "claude" ∉ MODEL_PRICING.map (fun p => p.1) ∧
    (estimate_call_cost "claude" "a" "b" ⟨7/2, 3⟩).2 = (⟨7/2, 3⟩ : EstimatorState) :=
  ⟨by decide, unknown_model_state_unchanged "claude" "a" "b" ⟨7/2, 3⟩ (by decide)⟩

/-- **C10.** `end_step` with no open step (start marker unset) appends no
record and leaves the tracker unchanged; consequently two consecutive
`end_step` calls can never record two durations from one `start_step`
(the second call finds the marker cleared). -/
theorem end_step_no_open (tr : TrackerState) (now : ℚ) (nm : String) (sz : ℕ)
    (h : tr.current_step_start = none) :
    end_step tr now nm sz = tr ∧
    ∀ (tr2 : TrackerState) (n1 n2 : ℚ) (s1 s2 : String) (r1 r2 : ℕ),
      ((end_step (end_step tr2 n1 s1 r1) n2 s2 r2).steps).length ≤
        tr2.steps.length + 1 := by
  constructor
  · simp [end_step, h]
  · intro tr2 n1 n2 s1 s2 r1 r2
    rcases h2 : tr2.current_step_start with _ | t
    · simp [end_step, h2]
    · by_cases ht : t = 0
      · simp [end_step, h2, ht]
      · simp [end_step, h2, ht]

/-- Witness for C10 at a freshly initialised tracker. -/
theorem end_step_no_open_witness :
    TrackerState.init.current_step_start = none ∧
    end_step TrackerState.init 5 "A" 0 = TrackerState.init :=
  ⟨rfl, (end_step_no_open TrackerState.init 5 "A" 0 rfl).1⟩

/-- **C2, counterexample.** The content cleaner is not idempotent: on the
input `" ``` \n X"` with a leading space before the fence (written here as
the six characters space, backquote, backquote, backquote, newline, `X`),
the first pass only strips the leading space, exposing the fence at the
start of a line, and the second pass then deletes it. -/
theorem clean_not_idempotent :
    clean_section_content (clean_section_content " ```\nX") ≠
      clean_section_content " ```\nX" := by
  decide

/-- **C3, counterexample.** `create_filename` does not always produce a slug
matching `[a-z0-9-]*`: the topic `"a_b"` keeps its underscore (Python `\w`
retains `_`), so the slug `"a_b"` is outside the claimed class. -/
theorem create_filename_slug_class_cex :
    create_filename "a_b" "beginner" "md" = "a_b-beginner-guide.md" ∧
    ¬ ((safeTopic "a_b").all claimSlugChar = true) := by
  decide

theorem toLower_toNat_of_upper (c : Char) (h1 : 65 ≤ c.toNat)
    (h2 : c.toNat ≤ 90) : (Char.toLower c).toNat = c.toNat + 32 := by
  unfold Char.toLower
  rw [if_pos ⟨h1, h2⟩]
  have hv : (c.val.toNat + 32).isValidChar := by
    left
    have h2' : c.val.toNat ≤ 90 := h2
    omega
  simp only [Char.ofNat, Char.toNat, Char.ofNatAux]
  rw [dif_pos hv]
  rfl

theorem toLower_not_upper (c : Char) :
    ¬(65 ≤ (Char.toLower c).toNat ∧ (Char.toLower c).toNat ≤ 90) := by
  by_cases h : 65 ≤ c.toNat ∧ c.toNat ≤ 90
  · rw [toLower_toNat_of_upper c h.1 h.2]
    omega
  · have he : Char.toLower c = c := by
      unfold Char.toLower
      rw [if_neg h]
    rw [he]
    exact h

theorem collapseHyphenRuns_mem (l : List Char) :
    ∀ c ∈ collapseHyphenRuns l,
      c = '-' ∨ (c ∈ l ∧ (c = '-' || pyIsSpace c) = false) := by
  induction l with
  | nil => simp [collapseHyphenRuns]
  | cons a t ih =>
    cases t with
    | nil =>
      intro c hc
      simp only [collapseHyphenRuns] at hc
      split at hc
      · simp at hc
        left
        exact hc
      · next hcond =>
        simp at hc
        right
        subst hc
        simp only [List.mem_singleton, true_and]
        simpa using hcond
    | cons d cs =>
      intro c hc
      simp only [collapseHyphenRuns] at hc
      split at hc
      · split at hc
        · rcases ih c hc with h | ⟨hm, hp⟩
          · left; exact h
          · right; exact ⟨List.mem_cons_of_mem _ hm, hp⟩
        · rcases List.mem_cons.1 hc with h | h
          · left; exact h
          · rcases ih c h with h' | ⟨hm, hp⟩
            · left; exact h'
            · right; exact ⟨List.mem_cons_of_mem _ hm, hp⟩
      · next hcond =>
        rcases List.mem_cons.1 hc with h | h
        · right
          subst h
          simp only [List.mem_cons, true_or, true_and]
          simpa using hcond
        · rcases ih c h with h' | ⟨hm, hp⟩
          · left; exact h'
          · right; exact ⟨List.mem_cons_of_mem _ hm, hp⟩

theorem truncate50_length_le (l : List Char) :
    (truncate50 l).length ≤ 50 := by
  unfold truncate50
  split
  · rw [List.length_reverse]
    calc ((l.take 50).reverse.dropWhile (fun c => c = '-')).length
        ≤ (l.take 50).reverse.length := (List.dropWhile_sublist _).length_le
      _ = (l.take 50).length := List.length_reverse _
      _ ≤ 50 := by simp [List.length_take]
  · next hn => omega

theorem truncate50_subset (l : List Char) : truncate50 l ⊆ l := by
  unfold truncate50
  split
  · intro c hc
    rw [List.mem_reverse] at hc
    have := (List.dropWhile_sublist _).subset hc
    rw [List.mem_reverse] at this
    exact List.take_subset _ _ this
  · exact fun c hc => hc

theorem stripHyphens_subset (l : List Char) : stripHyphens l ⊆ l := by
  unfold stripHyphens
  intro c hc
  rw [List.mem_reverse] at hc
  have := (List.dropWhile_sublist _).subset hc
  rw [List.mem_reverse] at this
  exact (List.dropWhile_sublist _).subset this

/-- **C3, amended.** For every topic, audience and extension,
`create_filename` returns `{slug}-{audience}-guide.{ext}` where the slug
has length at most 50 and all its characters lie in `[a-z0-9_-]`
(the claimed class `[a-z0-9-]` plus underscore, which Python `\w` keeps;
in the full unicode source, non-ASCII word characters may also survive). -/
theorem create_filename_amended (topic audience ext : String) :
    create_filename topic audience ext =
      String.mk (safeTopic topic) ++ "-" ++ audience ++ "-guide." ++ ext ∧
    (safeTopic topic).length ≤ 50 ∧
    (safeTopic topic).all sourceSlugChar = true := by
  refine ⟨rfl, truncate50_length_le _, ?_⟩
  rw [List.all_eq_true]
  intro c hc
  have hc2 : c ∈ collapseHyphenRuns
      ((topic.data.map asciiLower).filter
        (fun c => pyIsWord c || pyIsSpace c || c = '-')) := by
    unfold safeTopic at hc
    exact stripHyphens_subset _ (truncate50_subset _ hc)
  rcases collapseHyphenRuns_mem _ c hc2 with h | ⟨hm, hp⟩
  · subst h
    decide
  · rw [List.mem_filter] at hm
    obtain ⟨hmem, hclass⟩ := hm
    rw [List.mem_map] at hmem
    obtain ⟨d, _, hd⟩ := hmem
    have hup : ¬(65 ≤ c.toNat ∧ c.toNat ≤ 90) := by
      rw [← hd]
      exact toLower_not_upper d
    have hword : pyIsWord c = true := by
      simp only [Bool.or_eq_false_iff] at hp
      simp only [Bool.or_eq_true] at hclass
      rcases hclass with (hw | hs) | hh
      · exact hw
      · rw [hp.2] at hs
        exact absurd hs (by simp)
      · rw [hp.1] at hh
        exact absurd hh (by simp)
    simp only [pyIsWord, Bool.or_eq_true, Bool.and_eq_true, decide_eq_true_eq] at hword
    simp only [sourceSlugChar, claimSlugChar, Bool.or_eq_true, Bool.and_eq_true,
      decide_eq_true_eq]
    omega

theorem runSections_fst (gen : GuideSection → String → String)
    (ss : List GuideSection) (st : List String × List (String × String)) :
    (ss.foldl (sectionStep gen) st).1 = st.1 ++ ss.map (fun s => s.title) := by
  induction ss generalizing st with
  | nil => simp
  | cons a t ih =>
    rw [List.foldl_cons, ih]
    simp [sectionStep]

theorem runSections_keys (gen : GuideSection → String → String)
    (ss : List GuideSection) (st : List String × List (String × String))
    (k : String) :
    k ∈ dictKeys (ss.foldl (sectionStep gen) st).2 →
    k ∈ dictKeys st.2 ∨ k ∈ ss.map (fun s => s.title) := by
  induction ss generalizing st with
  | nil => exact fun h => Or.inl h
  | cons a t ih =>
    intro h
    rw [List.foldl_cons] at h
    rcases ih _ h with h' | h'
    · simp only [sectionStep, dictInsert, dictKeys, List.map_cons,
        List.mem_cons] at h'
      rcases h' with h'' | h''
      · right
        rw [List.map_cons, List.mem_cons]
        left
        exact h''
      · left
        exact h''
    · right
      rw [List.map_cons, List.mem_cons]
      right
      exact h'

/-- **C4.** At every point of the section loop (after any number `i` of
processed sections), the keys of `sections_content` are a subset of the
outline's section titles: the only inserting operation uses a title drawn
from the outline's section list. -/
theorem sections_content_keys_subset (gen : GuideSection → String → String)
    (outline : GuideOutline) (i : ℕ) (k : String)
    (hk : k ∈ dictKeys (loopStateAt gen outline i).2) :
    k ∈ outline.sections.map (fun s => s.title) := by
  rcases runSections_keys gen _ ([], []) k hk with h | h
  · simp [dictKeys] at h
  · exact ((List.take_sublist i outline.sections).map (fun s => s.title)).subset h

/-- Witness for C4 at a concrete two-section run. -/
theorem sections_content_keys_subset_witness :
    "S1" ∈ dictKeys (loopStateAt witGen witOutline 2).2 ∧
    "S1" ∈ witOutline.sections.map (fun s => s.title) :=
  ⟨by decide, sections_content_keys_subset witGen witOutline 2 "S1" (by decide)⟩

/-- **C8.** The context passed to the agent-crew call is the sentinel
string for the first section, and for every later section it is the
`# Previously Written Sections` header followed by, for each previously
completed section in completion order (equal to outline order), its title
as a `## ` heading and its stored cleaned body. -/
theorem context_sentinel_and_previous (gen : GuideSection → String → String)
    (o : GuideOutline) :
    contextAt gen o 0 = "No previous sections written yet." ∧
    ∀ i, 0 < i → i ≤ o.sections.length →
      contextAt gen o i = "# Previously Written Sections\n\n" ++
        concatAll (((o.sections.take i).map (fun s => s.title)).map
          (fun t => "## " ++ t ++ "\n\n" ++
            dictGet (loopStateAt gen o i).2 t ++ "\n\n")) := by
  constructor
  · rfl
  · intro i h0 hlen
    have hfst : (loopStateAt gen o i).1 =
        (o.sections.take i).map (fun s => s.title) := by
      unfold loopStateAt runSections
      rw [runSections_fst]
      simp
    unfold contextAt
    rw [hfst]
    have hne : (((o.sections.take i).map (fun s => s.title)).isEmpty) = false := by
      rw [List.isEmpty_eq_false_iff_exists_mem]
      have : o.sections.take i ≠ [] := by
        rw [← List.length_pos_iff_ne_nil, List.length_take]
        omega
      rcases List.exists_mem_of_ne_nil _ this with ⟨s, hs⟩
      exact ⟨s.title, List.mem_map_of_mem _ hs⟩
    unfold previousSectionsText
    rw [hne]
    simp only [Bool.false_eq_true, if_false]
    have hfx : (fun (acc t : String) => acc ++ "## " ++ t ++ "\n\n" ++
        dictGet (loopStateAt gen o i).2 t ++ "\n\n") =
        (fun (acc t : String) => acc ++ ("## " ++ t ++ "\n\n" ++
          dictGet (loopStateAt gen o i).2 t ++ "\n\n")) := by
      funext acc t
      simp [String.append_assoc]
    rw [hfx, foldl_append_acc]

/-- Witness for C8 at a concrete outline, for the second section. -/
theorem context_sentinel_and_previous_witness :
    (0 < 1 ∧ 1 ≤ witOutline.sections.length) ∧
    contextAt witGen witOutline 1 = "# Previously Written Sections\n\n" ++
      concatAll (((witOutline.sections.take 1).map (fun s => s.title)).map
        (fun t => "## " ++ t ++ "\n\n" ++
          dictGet (loopStateAt witGen witOutline 1).2 t ++ "\n\n")) :=
  ⟨⟨by decide, by decide⟩,
   (context_sentinel_and_previous witGen witOutline).2 1 (by decide) (by decide)⟩

theorem splitNl_ne_nil (cs : List Char) : splitNl cs ≠ [] := by
  cases cs with
  | nil => simp [splitNl]
  | cons c cs =>
    simp only [splitNl]
    split
    · simp
    · split <;> simp

theorem splitNl_head (cs : List Char) :
    ∃ ls, splitNl cs = firstLine cs :: ls := by
  induction cs with
  | nil => exact ⟨[], rfl⟩
  | cons c cs ih =>
    by_cases h : c = '\n'
    · subst h
      refine ⟨splitNl cs, ?_⟩
      simp [splitNl, firstLine]
    · obtain ⟨ls, hls⟩ := ih
      refine ⟨ls, ?_⟩
      simp only [splitNl, if_neg h, hls, firstLine, List.takeWhile_cons,
        decide_eq_true_eq]
      rw [if_pos h]

theorem joinNl_cons_cons (c : Char) (l : List Char) (ls : List (List Char)) :
    joinNl ((c :: l) :: ls) = c :: joinNl (l :: ls) := by
  cases ls <;> simp [joinNl]

theorem joinNl_splitNl (cs : List Char) : joinNl (splitNl cs) = cs := by
  induction cs with
  | nil => rfl
  | cons c cs ih =>
    by_cases h : c = '\n'
    · subst h
      simp only [splitNl, if_pos rfl]
      cases hs : splitNl cs with
      | nil => exact absurd hs (splitNl_ne_nil cs)
      | cons l ls =>
        show joinNl ([] :: l :: ls) = '\n' :: cs
        rw [show joinNl ([] :: l :: ls) = [] ++ '\n' :: joinNl (l :: ls) from rfl]
        rw [← hs, ih]
        rfl
    · simp only [splitNl, if_neg h]
      cases hs : splitNl cs with
      | nil => exact absurd hs (splitNl_ne_nil cs)
      | cons l ls =>
        rw [joinNl_cons_cons, ← hs, ih]

theorem pyStripLeft_cons_not_space {c : Char} (cs : List Char)
    (h : pyIsSpace c = false) : pyStripLeft (c :: cs) = c :: cs := by
  simp [pyStripLeft, List.dropWhile_cons, h]

theorem pyStripRight_cons_not_space {c : Char} (u : List Char)
    (h : pyIsSpace c = false) : pyStripRight (c :: u) = c :: pyStripRight u := by
  unfold pyStripRight
  rw [show (c :: u).reverse = u.reverse ++ [c] from by simp]
  rw [List.dropWhile_append]
  split
  · next he =>
    have h0 : u.reverse.dropWhile pyIsSpace = [] := by
      rwa [List.isEmpty_iff] at he
    rw [h0]
    simp [List.dropWhile_cons, h]
  · simp

theorem pyStrip_cons_not_space {c : Char} (u : List Char)
    (h : pyIsSpace c = false) : pyStrip (c :: u) = c :: pyStripRight u := by
  unfold pyStrip
  rw [pyStripLeft_cons_not_space u h, pyStripRight_cons_not_space u h]

theorem pyStripRight_prefix (u : List Char) : pyStripRight u <+: u := by
  refine ⟨(u.reverse.takeWhile pyIsSpace).reverse, ?_⟩
  unfold pyStripRight
  rw [← List.reverse_append, List.takeWhile_append_dropWhile, List.reverse_reverse]

theorem pyStripLeft_head_not_space {u : List Char} {c : Char} {rest : List Char}
    (h : pyStripLeft u = c :: rest) : pyIsSpace c = false := by
  induction u with
  | nil => simp [pyStripLeft] at h
  | cons a t ih =>
    rw [pyStripLeft, List.dropWhile_cons] at h
    split at h
    · exact ih (by rwa [pyStripLeft])
    · next hn =>
      cases h
      simpa using hn

theorem pyStrip_head_not_space {u : List Char} {c : Char} {rest : List Char}
    (h : pyStrip u = c :: rest) : pyIsSpace c = false := by
  unfold pyStrip at h
  have hp := pyStripRight_prefix (pyStripLeft u)
  rw [h] at hp
  obtain ⟨t, ht⟩ := hp
  exact pyStripLeft_head_not_space
    (show pyStripLeft u = c :: (rest ++ t) from by rw [← ht]; simp)

theorem pyStripRight_getLast_not_space {u : List Char} {c : Char}
    (h : (pyStripRight u).getLast? = some c) : pyIsSpace c = false := by
  unfold pyStripRight at h
  rw [List.getLast?_reverse] at h
  cases hd : u.reverse.dropWhile pyIsSpace with
  | nil => rw [hd] at h; simp at h
  | cons a t =>
    rw [hd] at h
    simp only [List.head?_cons, Option.some.injEq] at h
    rw [← h]
    exact pyStripLeft_head_not_space (show pyStripLeft u.reverse = a :: t from hd)

theorem pyStrip_getLast_not_space {u : List Char} {c : Char}
    (h : (pyStrip u).getLast? = some c) : pyIsSpace c = false :=
  pyStripRight_getLast_not_space h

theorem pyStripRight_eq_self {u : List Char}
    (h : ∀ c, u.getLast? = some c → pyIsSpace c = false) : pyStripRight u = u := by
  unfold pyStripRight
  cases hr : u.reverse with
  | nil =>
    have : u = [] := by
      have := congrArg List.reverse hr
      simpa using this
    simp [this]
  | cons a t =>
    have ha : u.getLast? = some a := by
      rw [← List.head?_reverse, hr]
      rfl
    rw [List.dropWhile_cons, if_neg (by simp [h a ha])]
    rw [← hr, List.reverse_reverse]

theorem drop_takeWhile_length {α : Type} (p : α → Bool) (l : List α) :
    l.drop (l.takeWhile p).length = l.dropWhile p := by
  induction l with
  | nil => rfl
  | cons a t ih =>
    rw [List.takeWhile_cons, List.dropWhile_cons]
    split
    · simpa using ih
    · simp

theorem afterNlRun_eq (cs : List Char) :
    cs = ((cs.takeWhile pyIsSpace).reverse.dropWhile
      (fun c => c ≠ '\n')).reverse ++ afterNlRun cs := by
  unfold afterNlRun
  rw [← List.append_assoc, ← List.reverse_append,
    List.takeWhile_append_dropWhile, List.reverse_reverse]
  rw [drop_takeWhile_length, List.takeWhile_append_dropWhile]

theorem afterNlRun_decomp (cs : List Char) :
    ∃ p, (∀ c ∈ p, pyIsSpace c = true) ∧ cs = p ++ afterNlRun cs := by
  refine ⟨((cs.takeWhile pyIsSpace).reverse.dropWhile (fun c => c ≠ '\n')).reverse,
    ?_, afterNlRun_eq cs⟩
  intro c hc
  rw [List.mem_reverse] at hc
  have h1 := (List.dropWhile_sublist _).subset hc
  rw [List.mem_reverse] at h1
  exact List.mem_takeWhile_imp h1

theorem takeWhile_dropWhile_nil {α : Type} (p : α → Bool) (l : List α) :
    (l.dropWhile p).takeWhile p = [] := by
  induction l with
  | nil => rfl
  | cons a t ih =>
    rw [List.dropWhile_cons]
    split
    · exact ih
    · next hp =>
      rw [List.takeWhile_cons, if_neg (by simpa using hp)]

theorem takeWhile_eq_self_of_forall {α : Type} (p : α → Bool) (l : List α)
    (h : ∀ c ∈ l, p c = true) : l.takeWhile p = l := by
  induction l with
  | nil => rfl
  | cons a t ih =>
    rw [List.takeWhile_cons, if_pos (h a (List.mem_cons_self a t))]
    rw [ih (fun c hc => h c (List.mem_cons_of_mem a hc))]

theorem afterNlRun_leading (cs : List Char) :
    (afterNlRun cs).takeWhile pyIsSpace =
      ((cs.takeWhile pyIsSpace).reverse.takeWhile (fun c => c ≠ '\n')).reverse := by
  unfold afterNlRun
  have hws : ∀ c ∈ ((cs.takeWhile pyIsSpace).reverse.takeWhile
      (fun c => c ≠ '\n')).reverse, pyIsSpace c = true := by
    intro c hc
    rw [List.mem_reverse] at hc
    have h1 := (List.takeWhile_sublist _).subset hc
    rw [List.mem_reverse] at h1
    exact List.mem_takeWhile_imp h1
  rw [List.takeWhile_append,
    if_pos (by rw [takeWhile_eq_self_of_forall _ _ hws])]
  rw [drop_takeWhile_length, takeWhile_dropWhile_nil, List.append_nil]

theorem afterNlRun_leading_count (cs : List Char) :
    ((afterNlRun cs).takeWhile pyIsSpace).count '\n' = 0 := by
  rw [afterNlRun_leading, List.count_eq_zero]
  intro hmem
  rw [List.mem_reverse] at hmem
  have := List.mem_takeWhile_imp hmem
  simp at this

theorem afterNlRun_length_lt (cs : List Char)
    (h : 1 ≤ (cs.takeWhile pyIsSpace).count '\n') :
    (afterNlRun cs).length < cs.length := by
  obtain ⟨p, hws, hdec⟩ := afterNlRun_decomp cs
  have hp : p ≠ [] := by
    intro hnil
    rw [hnil, List.nil_append] at hdec
    have : ((afterNlRun cs).takeWhile pyIsSpace).count '\n' = 0 :=
      afterNlRun_leading_count cs
    rw [← hdec] at this
    omega
  have hlen : cs.length = p.length + (afterNlRun cs).length := by
    conv_lhs => rw [hdec]
    rw [List.length_append]
  have hpl : 0 < p.length := List.length_pos_iff_ne_nil.2 hp
  omega

theorem collapseFuel_firstLine : ∀ (f : ℕ) (cs : List Char), cs.length < f →
    firstLine (collapseFuel f cs) = firstLine cs := by
  intro f
  induction f with
  | zero => intro cs h; omega
  | succ f ih =>
    intro cs h
    cases cs with
    | nil => rfl
    | cons c cs' =>
      simp only [collapseFuel]
      split
      · next hc =>
        rw [Bool.and_eq_true] at hc
        have hcn : c = '\n' := by simpa using hc.1
        subst hcn
        simp [firstLine, List.takeWhile_cons]
      · by_cases hcn : c = '\n'
        · subst hcn
          simp [firstLine, List.takeWhile_cons]
        · have hlt : cs'.length < f := by
            simp only [List.length_cons] at h
            omega
          simp only [firstLine, List.takeWhile_cons, decide_eq_true_eq]
          rw [if_pos hcn, if_pos hcn]
          rw [show (collapseFuel f cs').takeWhile (fun c => decide (c ≠ '\n')) =
            firstLine (collapseFuel f cs') from rfl]
          rw [ih cs' hlt]
          rfl

theorem collapseFuel_nil : ∀ f : ℕ, collapseFuel f [] = [] := by
  intro f
  cases f <;> rfl

theorem getLast?_cons_of_ne_nil {α : Type} (a : α) {l : List α} (h : l ≠ []) :
    (a :: l).getLast? = l.getLast? := by
  cases l with
  | nil => exact absurd rfl h
  | cons b t => exact List.getLast?_cons_cons

theorem collapseFuel_getLast? : ∀ (f : ℕ) (cs : List Char), cs.length < f →
    (∀ c, cs.getLast? = some c → pyIsSpace c = false) →
    (collapseFuel f cs).getLast? = cs.getLast? := by
  intro f
  induction f with
  | zero => intro cs h; omega
  | succ f ih =>
    intro cs h hws
    cases cs with
    | nil => rfl
    | cons c cs' =>
      simp only [collapseFuel]
      split
      · next hc =>
        rw [Bool.and_eq_true] at hc
        have hcn : c = '\n' := by simpa using hc.1
        have hcount : 2 ≤ (cs'.takeWhile pyIsSpace).count '\n' := by
          simpa using hc.2
        subst hcn
        obtain ⟨p, hpws, hdec⟩ := afterNlRun_decomp cs'
        have hrne : afterNlRun cs' ≠ [] := by
          intro hnil
          have hlast : ('\n' :: cs').getLast? = some '\n' ∨
              ∃ d, ('\n' :: cs').getLast? = some d ∧ pyIsSpace d = true := by
            cases hcs' : cs'.getLast? with
            | none =>
              left
              rw [List.getLast?_eq_none_iff] at hcs'
              subst hcs'
              rfl
            | some d =>
              right
              refine ⟨d, ?_, ?_⟩
              · rw [getLast?_cons_of_ne_nil _ (by
                  intro hn
                  rw [hn] at hcs'
                  simp at hcs')]
                exact hcs'
              · have hd : d ∈ cs' := List.mem_of_mem_getLast? (by rw [hcs']; rfl)
                have : cs' = p := by rw [hdec, hnil, List.append_nil]
                rw [this] at hd
                exact hpws d hd
          rcases hlast with h1 | ⟨d, hd1, hd2⟩
          · have := hws '\n' h1
            simp [pyIsSpace] at this
          · have := hws d hd1
            rw [this] at hd2
            exact absurd hd2 (by simp)
        have hlr : (afterNlRun cs').length < f := by
          have h1 : (afterNlRun cs').length ≤ cs'.length := by
            have : cs'.length = p.length + (afterNlRun cs').length := by
              conv_lhs => rw [hdec]
              rw [List.length_append]
            omega
          simp only [List.length_cons] at h
          omega
        have hcsne : cs' ≠ [] := by
          intro hn
          rw [hn] at hcount
          simp at hcount
        have hlast_eq : cs'.getLast? = (afterNlRun cs').getLast? := by
          conv_lhs => rw [hdec]
          rw [List.getLast?_append]
          cases hr : (afterNlRun cs').getLast? with
          | none => exact absurd (List.getLast?_eq_none_iff.1 hr) hrne
          | some d => rfl
        have hws' : ∀ c, (afterNlRun cs').getLast? = some c → pyIsSpace c = false := by
          intro e he
          apply hws e
          rw [getLast?_cons_of_ne_nil _ hcsne, hlast_eq]
          exact he
        have hout : (collapseFuel f (afterNlRun cs')).getLast? =
            (afterNlRun cs').getLast? := ih _ hlr hws'
        have houtne : collapseFuel f (afterNlRun cs') ≠ [] := by
          intro hn
          rw [hn] at hout
          exact hrne (List.getLast?_eq_none_iff.1 hout.symm)
        rw [getLast?_cons_of_ne_nil _ (by simp [houtne] : ('\n' :: collapseFuel f (afterNlRun cs')) ≠ [])]
        rw [getLast?_cons_of_ne_nil _ houtne, hout, ← hlast_eq,
          getLast?_cons_of_ne_nil _ hcsne]
      · cases hcs' : cs' with
        | nil =>
          subst hcs'
          rw [collapseFuel_nil]
        | cons d t =>
          have hne : cs' ≠ [] := by rw [hcs']; simp
          have hlt : cs'.length < f := by
            simp only [List.length_cons] at h
            omega
          rw [← hcs']
          have hout : (collapseFuel f cs').getLast? = cs'.getLast? :=
            ih _ hlt (by
              intro e he
              apply hws e
              rwa [getLast?_cons_of_ne_nil _ hne])
          have houtne : collapseFuel f cs' ≠ [] := by
            intro hn
            rw [hn] at hout
            have := List.getLast?_eq_none_iff.1 hout.symm
            exact hne this
          rw [getLast?_cons_of_ne_nil _ houtne, hout,
            getLast?_cons_of_ne_nil _ hne]

theorem collapseBlank_firstLine (cs : List Char) :
    firstLine (collapseBlank cs) = firstLine cs :=
  collapseFuel_firstLine _ cs (by omega)

theorem collapseBlank_getLast? (cs : List Char)
    (hws : ∀ c, cs.getLast? = some c → pyIsSpace c = false) :
    (collapseBlank cs).getLast? = cs.getLast? :=
  collapseFuel_getLast? _ cs (by omega) hws

theorem collapseBlank_cons_not_nl {c : Char} (cs : List Char) (h : c ≠ '\n') :
    collapseBlank (c :: cs) = c :: collapseBlank cs := by
  unfold collapseBlank
  show collapseFuel (cs.length + 1 + 1) (c :: cs) = c :: collapseFuel (cs.length + 1) cs
  simp only [collapseFuel]
  rw [if_neg (by simp [h])]

theorem pyStrip_prefix_of_head_not_space (u : List Char)
    (h : ∀ c rest, u = c :: rest → pyIsSpace c = false) : pyStrip u <+: u := by
  cases u with
  | nil => exact ⟨[], rfl⟩
  | cons c rest =>
    rw [pyStrip_cons_not_space _ (h c rest rfl)]
    obtain ⟨t, ht⟩ := pyStripRight_prefix rest
    exact ⟨t, by rw [List.cons_append, ht]⟩

theorem firstLine_pyStrip_head (u : List Char) :
    ∀ c rest, firstLine (pyStrip u) = c :: rest → pyIsSpace c = false := by
  intro c rest h
  cases hu : pyStrip u with
  | nil => rw [hu] at h; simp [firstLine] at h
  | cons a t =>
    rw [hu, firstLine, List.takeWhile_cons] at h
    split at h
    · cases h
      exact pyStrip_head_not_space hu
    · cases h

/-- **C7.** If, after fence stripping and meta-comment removal, the first
line of the stripped content is a level-1 heading (its stripped form starts
with `# ` and not `## `), then the cleaner's output has exactly that line
with one `#` prepended as its first line; in particular the output's first
line starts with `## `. -/
theorem clean_promotes_h1_first_line (x : List Char)
    (h1 : "# ".data.isPrefixOf
      (pyStrip (firstLine (pyStrip (metaFiltered (fenceStripped x))))) = true)
    (h2 : "## ".data.isPrefixOf
      (pyStrip (firstLine (pyStrip (metaFiltered (fenceStripped x))))) = false) :
    firstLine (cleanChars x) =
      '#' :: firstLine (pyStrip (metaFiltered (fenceStripped x))) ∧
    "## ".data.isPrefixOf (firstLine (cleanChars x)) = true := by
  set s := pyStrip (metaFiltered (fenceStripped x)) with hs
  set l0 := firstLine s with hl0
  obtain ⟨ls, hsplit⟩ := splitNl_head s
  have hpromote : promoteHeading (splitNl s) = ('#' :: l0) :: ls := by
    rw [hsplit]
    simp only [promoteHeading]
    rw [if_pos (by rw [h1, h2]; rfl)]
  have hjoin : joinNl (promoteHeading (splitNl s)) = '#' :: s := by
    rw [hpromote, joinNl_cons_cons, ← hsplit, joinNl_splitNl]
  have hclean : cleanChars x = pyStrip (collapseBlank ('#' :: s)) := by
    unfold cleanChars
    rw [← hs, hjoin]
  have hcb : collapseBlank ('#' :: s) = '#' :: collapseBlank s :=
    collapseBlank_cons_not_nl s (by decide)
  have hsws : ∀ c, s.getLast? = some c → pyIsSpace c = false := by
    intro c hc
    exact pyStrip_getLast_not_space (hs ▸ hc)
  have hcbl : (collapseBlank s).getLast? = s.getLast? :=
    collapseBlank_getLast? s hsws
  have hsr : pyStripRight (collapseBlank s) = collapseBlank s := by
    apply pyStripRight_eq_self
    intro c hc
    rw [hcbl] at hc
    exact hsws c hc
  have hfinal : cleanChars x = '#' :: collapseBlank s := by
    rw [hclean, hcb, pyStrip_cons_not_space _ (by decide), hsr]
  have hfl : firstLine (cleanChars x) = '#' :: l0 := by
    rw [hfinal]
    show List.takeWhile (fun c => c ≠ '\n') ('#' :: collapseBlank s) = '#' :: l0
    rw [List.takeWhile_cons, if_pos (by decide)]
    rw [show (collapseBlank s).takeWhile (fun c => decide (c ≠ '\n')) =
      firstLine (collapseBlank s) from rfl]
    rw [collapseBlank_firstLine]
  refine ⟨hfl, ?_⟩
  have hl0head : ∀ c rest, l0 = c :: rest → pyIsSpace c = false := by
    intro c rest hh
    exact firstLine_pyStrip_head (metaFiltered (fenceStripped x)) c rest hh
  have hl0p : "# ".data <+: l0 :=
    (List.isPrefixOf_iff_prefix.1 h1).trans
      (pyStrip_prefix_of_head_not_space l0 hl0head)
  rw [hfl]
  rw [List.isPrefixOf_iff_prefix]
  obtain ⟨t, ht⟩ := hl0p
  refine ⟨t, ?_⟩
  rw [← ht]
  rfl

/-- Witness for C7 at the concrete input `"# Hi\nBody"`. -/
theorem clean_promotes_h1_first_line_witness :
    ("# ".data.isPrefixOf (pyStrip (firstLine (pyStrip (metaFiltered
      (fenceStripped "# Hi\nBody".data))))) = true) ∧
    firstLine (cleanChars "# Hi\nBody".data) =
      '#' :: firstLine (pyStrip (metaFiltered (fenceStripped "# Hi\nBody".data))) ∧
    "## ".data.isPrefixOf (firstLine (cleanChars "# Hi\nBody".data)) = true :=
  ⟨by decide,
   (clean_promotes_h1_first_line "# Hi\nBody".data (by decide) (by decide)).1,
   (clean_promotes_h1_first_line "# Hi\nBody".data (by decide) (by decide)).2⟩

theorem collapseFuel_of_not_hasTriple : ∀ (f : ℕ) (cs : List Char),
    cs.length < f → hasTriple cs = false → collapseFuel f cs = cs := by
  intro f
  induction f with
  | zero => intro cs h; omega
  | succ f ih =>
    intro cs h hT
    cases cs with
    | nil => rfl
    | cons c cs' =>
      simp only [hasTriple, Bool.or_eq_false_iff] at hT
      simp only [collapseFuel]
      rw [if_neg (by rw [hT.1]; simp)]
      rw [ih cs' (by simp only [List.length_cons] at h; omega) hT.2]

theorem collapseFuel_no_hasTriple : ∀ (f : ℕ) (cs : List Char),
    cs.length < f →
    hasTriple (collapseFuel f cs) = false ∧
    ((collapseFuel f cs).takeWhile pyIsSpace).count '\n' ≤
      (cs.takeWhile pyIsSpace).count '\n' := by
  intro f
  induction f with
  | zero => intro cs h; omega
  | succ f ih =>
    intro cs h
    cases cs with
    | nil => exact ⟨rfl, Nat.le_refl _⟩
    | cons c cs' =>
      have hlt : cs'.length < f := by
        simp only [List.length_cons] at h
        omega
      simp only [collapseFuel]
      split
      · next hc =>
        rw [Bool.and_eq_true] at hc
        have hcn : c = '\n' := by simpa using hc.1
        have hcount : 2 ≤ (cs'.takeWhile pyIsSpace).count '\n' := by
          simpa using hc.2
        subst hcn
        have hrl : (afterNlRun cs').length < f := by
          have := afterNlRun_length_lt cs' (by omega)
          omega
        obtain ⟨ihT, ihC⟩ := ih (afterNlRun cs') hrl
        have hlead : ((afterNlRun cs').takeWhile pyIsSpace).count '\n' = 0 :=
          afterNlRun_leading_count cs'
        have hleadv : ((collapseFuel f (afterNlRun cs')).takeWhile
            pyIsSpace).count '\n' = 0 := by omega
        constructor
        · simp only [hasTriple, Bool.or_eq_false_iff]
          refine ⟨?_, ?_, ihT⟩
          · rw [Bool.and_eq_false_iff]
            right
            simp only [decide_eq_false_iff_not, not_le]
            rw [List.takeWhile_cons, if_pos (by decide)]
            rw [List.count_cons]
            simp only [beq_self_eq_true, if_true]
            omega
          · rw [Bool.and_eq_false_iff]
            right
            simp only [decide_eq_false_iff_not, not_le]
            omega
        · simp only [List.takeWhile_cons, show pyIsSpace '\n' = true from by decide,
            if_true, List.count_cons, beq_self_eq_true]
          omega
      · next hc =>
        obtain ⟨ihT, ihC⟩ := ih cs' hlt
        by_cases hcn : c = '\n'
        · subst hcn
          have hcount : ¬ 2 ≤ (cs'.takeWhile pyIsSpace).count '\n' := by
            intro hge
            exact hc (by simp [hge])
          constructor
          · simp only [hasTriple, Bool.or_eq_false_iff]
            refine ⟨?_, ihT⟩
            rw [Bool.and_eq_false_iff]
            right
            simp only [decide_eq_false_iff_not, not_le]
            omega
          · rw [List.takeWhile_cons, if_pos (by decide),
              List.takeWhile_cons, if_pos (by decide)]
            rw [List.count_cons, List.count_cons]
            simp only [beq_self_eq_true, if_true]
            omega
        · constructor
          · simp only [hasTriple, Bool.or_eq_false_iff]
            refine ⟨?_, ihT⟩
            rw [Bool.and_eq_false_iff]
            left
            simp [hcn]
          · by_cases hws : pyIsSpace c = true
            · rw [List.takeWhile_cons, if_pos hws,
                List.takeWhile_cons, if_pos hws]
              rw [List.count_cons, List.count_cons]
              simp only [show (c == '\n') = false from by simp [hcn]]
              simpa using ihC
            · rw [List.takeWhile_cons, if_neg hws,
                List.takeWhile_cons, if_neg hws]

theorem dropWhile_head_false {α : Type} (p : α → Bool) :
    ∀ (l : List α) {d : α} {rs : List α}, l.dropWhile p = d :: rs →
    p d = false := by
  intro l
  induction l with
  | nil => intro d rs h; simp at h
  | cons a t ih =>
    intro d rs h
    rw [List.dropWhile_cons] at h
    split at h
    · exact ih h
    · next hn =>
      cases h
      simpa using hn

theorem splitNl_cons_nl (u : List Char) :
    splitNl ('\n' :: u) = [] :: splitNl u := by
  simp [splitNl]

theorem splitNl_cons_of_ne {a : Char} (u : List Char) (ha : a ≠ '\n')
    {l0 : List Char} {ls : List (List Char)} (hs : splitNl u = l0 :: ls) :
    splitNl (a :: u) = (a :: l0) :: ls := by
  simp only [splitNl, if_neg ha, hs]

theorem subOpenFuel_id_no_bt (tag : List Char) (htag : '`' ∈ tag) :
    ∀ (f : ℕ) (cs : List Char), cs.length ≤ f → '`' ∉ cs →
    subOpenFuel tag f cs = cs := by
  intro f
  induction f with
  | zero =>
    intro cs h hbt
    have hnil : cs = [] := List.length_eq_zero.1 (Nat.le_zero.1 h)
    subst hnil
    rfl
  | succ f ih =>
    intro cs h hbt
    simp only [subOpenFuel]
    by_cases hemp : cs.isEmpty
    · rw [if_pos hemp]
      exact (List.isEmpty_iff.1 hemp).symm
    · rw [if_neg hemp]
      have hpre : tag.isPrefixOf cs = false := by
        by_contra hc
        rw [Bool.not_eq_false] at hc
        exact hbt ((List.isPrefixOf_iff_prefix.1 hc).sublist.subset htag)
      rw [hpre]
      simp only [Bool.false_eq_true, if_false]
      cases hdw : cs.dropWhile (fun c => c ≠ '\n') with
      | nil => rfl
      | cons d rs =>
        have hd : d = '\n' := by
          have hdh := dropWhile_head_false _ cs hdw
          simpa using hdh
        subst hd
        have hrs_bt : '`' ∉ rs := by
          intro hmem
          apply hbt
          exact (List.dropWhile_sublist _).subset
            (hdw ▸ List.mem_cons_of_mem '\n' hmem)
        have hrs_len : rs.length ≤ f := by
          have h1 : ('\n' :: rs).length ≤ cs.length := by
            rw [← hdw]
            exact (List.dropWhile_sublist _).length_le
          simp only [List.length_cons] at h1
          omega
        show List.takeWhile (fun c => decide (c ≠ '\n')) cs ++
          '\n' :: subOpenFuel tag f rs = cs
        rw [ih rs hrs_len hrs_bt]
        conv_rhs => rw [← List.takeWhile_append_dropWhile
          (fun c => decide (c ≠ '\n')) cs]
        rw [hdw]

theorem subCloseFuel_id_no_bt : ∀ (f : ℕ) (cs : List Char),
    '`' ∉ cs → subCloseFuel f cs = cs := by
  intro f
  induction f with
  | zero => intro cs _; rfl
  | succ f ih =>
    intro cs hbt
    cases cs with
    | nil => rfl
    | cons c cs' =>
      simp only [subCloseFuel]
      rw [if_neg (by
        rw [Bool.and_eq_true]
        rintro ⟨_, hpre⟩
        exact hbt (List.mem_cons_of_mem c
          ((List.isPrefixOf_iff_prefix.1 hpre).sublist.subset (by decide))))]
      rw [ih cs' (fun hmem => hbt (List.mem_cons_of_mem c hmem))]

theorem fenceStripped_id_no_bt (cs : List Char) (h : '`' ∉ cs) :
    fenceStripped cs = cs := by
  unfold fenceStripped subOpen subClose
  rw [subOpenFuel_id_no_bt _ (by decide) _ cs (by omega) h,
    subCloseFuel_id_no_bt _ cs h,
    subOpenFuel_id_no_bt _ (by decide) _ cs (by omega) h]

theorem mem_afterNlRun {c : Char} (u : List Char) (h : c ∈ afterNlRun u) :
    c ∈ u := by
  obtain ⟨p, _, hdec⟩ := afterNlRun_decomp u
  have := List.mem_append_right p h
  rwa [← hdec] at this

theorem collapseFuel_no_bt : ∀ (f : ℕ) (cs : List Char), cs.length < f →
    '`' ∉ cs → '`' ∉ collapseFuel f cs := by
  intro f
  induction f with
  | zero => intro cs h; omega
  | succ f ih =>
    intro cs h hbt
    cases cs with
    | nil => exact hbt
    | cons c cs' =>
      have hlt : cs'.length < f := by
        simp only [List.length_cons] at h
        omega
      have hbt' : '`' ∉ cs' := fun hmem => hbt (List.mem_cons_of_mem c hmem)
      simp only [collapseFuel]
      split
      · intro hmem
        rcases List.mem_cons.1 hmem with h1 | hmem
        · exact absurd h1 (by decide)
        rcases List.mem_cons.1 hmem with h1 | hmem
        · exact absurd h1 (by decide)
        have hlen : (afterNlRun cs').length < f := by
          obtain ⟨p, _, hdec⟩ := afterNlRun_decomp cs'
          have : cs'.length = p.length + (afterNlRun cs').length := by
            conv_lhs => rw [hdec]
            rw [List.length_append]
          omega
        exact ih (afterNlRun cs') hlen
          (fun hm => hbt' (mem_afterNlRun cs' hm)) hmem
      · intro hmem
        rcases List.mem_cons.1 hmem with h1 | hmem
        · exact hbt (h1 ▸ List.mem_cons_self c cs')
        · exact ih cs' hlt hbt' hmem

theorem mem_splitNl_subset {c : Char} :
    ∀ (u : List Char) (l : List Char), l ∈ splitNl u → c ∈ l → c ∈ u := by
  intro u
  induction u with
  | nil =>
    intro l hl hc
    simp only [splitNl, List.mem_singleton] at hl
    subst hl
    exact absurd hc (List.not_mem_nil c)
  | cons a u' ih =>
    intro l hl hc
    by_cases ha : a = '\n'
    · subst ha
      rw [splitNl_cons_nl] at hl
      rcases List.mem_cons.1 hl with h1 | h1
      · subst h1
        exact absurd hc (List.not_mem_nil c)
      · exact List.mem_cons_of_mem _ (ih l h1 hc)
    · cases hs : splitNl u' with
      | nil => exact absurd hs (splitNl_ne_nil u')
      | cons l0 ls =>
        rw [splitNl_cons_of_ne u' ha hs] at hl
        rcases List.mem_cons.1 hl with h1 | h1
        · subst h1
          rcases List.mem_cons.1 hc with h2 | h2
          · rw [h2]
            exact List.mem_cons_self a u'
          · exact List.mem_cons_of_mem a
              (ih l0 (by rw [hs]; exact List.mem_cons_self l0 ls) h2)
        · exact List.mem_cons_of_mem a
            (ih l (by rw [hs]; exact List.mem_cons_of_mem l0 h1) hc)

theorem mem_joinNl {c : Char} :
    ∀ (ls : List (List Char)), c ∈ joinNl ls →
    c = '\n' ∨ ∃ l ∈ ls, c ∈ l := by
  intro ls
  induction ls with
  | nil =>
    intro h
    exact absurd h (List.not_mem_nil c)
  | cons l ls ih =>
    intro h
    cases ls with
    | nil =>
      right
      exact ⟨l, List.mem_cons_self l [], h⟩
    | cons l2 ls2 =>
      rw [show joinNl (l :: l2 :: ls2) = l ++ '\n' :: joinNl (l2 :: ls2) from rfl]
        at h
      rcases List.mem_append.1 h with h1 | h1
      · right
        exact ⟨l, List.mem_cons_self l _, h1⟩
      · rcases List.mem_cons.1 h1 with h2 | h2
        · left
          exact h2
        · rcases ih h2 with h3 | ⟨l', hl', hc'⟩
          · left
            exact h3
          · right
            exact ⟨l', List.mem_cons_of_mem l hl', hc'⟩

theorem pyStrip_subset (u : List Char) : pyStrip u ⊆ u := by
  intro c hc
  unfold pyStrip pyStripRight at hc
  rw [List.mem_reverse] at hc
  have h1 := (List.dropWhile_sublist _).subset hc
  rw [List.mem_reverse] at h1
  exact (List.dropWhile_sublist _).subset h1

theorem mem_promoteHeading {l : List Char} :
    ∀ (ls : List (List Char)), l ∈ promoteHeading ls →
    l ∈ ls ∨ ∃ l0, l0 ∈ ls ∧ l = '#' :: l0 := by
  intro ls h
  cases ls with
  | nil => simp [promoteHeading] at h
  | cons l0 rest =>
    simp only [promoteHeading] at h
    split at h
    · rcases List.mem_cons.1 h with h1 | h1
      · right
        exact ⟨l0, List.mem_cons_self l0 rest, h1⟩
      · left
        exact List.mem_cons_of_mem l0 h1
    · left
      exact h

theorem cleanChars_no_bt (cs : List Char) (h : '`' ∉ cs) :
    '`' ∉ cleanChars cs := by
  intro hmem
  unfold cleanChars at hmem
  have h1 := pyStrip_subset _ hmem
  have h2 : '`' ∉ joinNl (promoteHeading
      (splitNl (pyStrip (metaFiltered (fenceStripped cs))))) := by
    intro hj
    rcases mem_joinNl _ hj with hnl | ⟨l, hl, hcl⟩
    · exact absurd hnl (by decide)
    rcases mem_promoteHeading _ hl with hin | ⟨l0, hl0, heq⟩
    · have h3 := mem_splitNl_subset _ _ hin hcl
      have h4 := pyStrip_subset _ h3
      unfold metaFiltered at h4
      rcases mem_joinNl _ h4 with hnl | ⟨l', hl', hcl'⟩
      · exact absurd hnl (by decide)
      have h5 := mem_splitNl_subset _ _ (List.mem_of_mem_filter hl') hcl'
      rw [fenceStripped_id_no_bt cs h] at h5
      exact h h5
    · subst heq
      rcases List.mem_cons.1 hcl with hsharp | hin0
      · exact absurd hsharp (by decide)
      have h3 := mem_splitNl_subset _ _ hl0 hin0
      have h4 := pyStrip_subset _ h3
      unfold metaFiltered at h4
      rcases mem_joinNl _ h4 with hnl | ⟨l', hl', hcl'⟩
      · exact absurd hnl (by decide)
      have h5 := mem_splitNl_subset _ _ (List.mem_of_mem_filter hl') hcl'
      rw [fenceStripped_id_no_bt cs h] at h5
      exact h h5
  exact absurd h1 (collapseFuel_no_bt _ _ (by omega) h2)

theorem afterNlRun_decomp_nl (cs : List Char)
    (h : 1 ≤ (cs.takeWhile pyIsSpace).count '\n') :
    ∃ q, cs = q ++ '\n' :: afterNlRun cs := by
  cases hd : (cs.takeWhile pyIsSpace).reverse.dropWhile (fun c => c ≠ '\n') with
  | nil =>
    rw [List.dropWhile_eq_nil_iff] at hd
    have : '\n' ∈ cs.takeWhile pyIsSpace := by
      rw [← List.count_pos_iff]
      omega
    have h2 := hd '\n' (List.mem_reverse.2 this)
    simp at h2
  | cons d v =>
    have hdn : d = '\n' := by
      have := dropWhile_head_false _ _ hd
      simpa using this
    subst hdn
    refine ⟨v.reverse, ?_⟩
    conv_lhs => rw [afterNlRun_eq cs]
    rw [hd]
    rw [List.reverse_cons, List.append_assoc]
    rfl

theorem pyStrip_ws_cons {c : Char} (l : List Char) (h : pyIsSpace c = true) :
    pyStrip (c :: l) = pyStrip l := by
  unfold pyStrip pyStripLeft
  rw [List.dropWhile_cons, if_pos h]

theorem isMeta_ws_cons {c : Char} (l : List Char) (h : pyIsSpace c = true) :
    isMeta (c :: l) = isMeta l := by
  unfold isMeta
  rw [pyStrip_ws_cons l h]

theorem pyStripRight_append_ws (m w : List Char)
    (h : ∀ c ∈ w, pyIsSpace c = true) :
    pyStripRight (m ++ w) = pyStripRight m := by
  unfold pyStripRight
  rw [List.reverse_append, List.dropWhile_append]
  rw [if_pos (by
    rw [List.isEmpty_iff, List.dropWhile_eq_nil_iff]
    intro x hx
    exact h x (List.mem_reverse.1 hx))]

theorem pyStripLeft_ws_append (w m : List Char)
    (h : ∀ c ∈ w, pyIsSpace c = true) :
    pyStripLeft (w ++ m) = pyStripLeft m := by
  unfold pyStripLeft
  rw [List.dropWhile_append]
  rw [if_pos (by
    rw [List.isEmpty_iff, List.dropWhile_eq_nil_iff]
    exact h)]

theorem pyStrip_ws_append (w m : List Char)
    (h : ∀ c ∈ w, pyIsSpace c = true) :
    pyStrip (w ++ m) = pyStrip m := by
  unfold pyStrip
  rw [pyStripLeft_ws_append w m h]

theorem pyStrip_append_ws (m w : List Char)
    (h : ∀ c ∈ w, pyIsSpace c = true) :
    pyStrip (m ++ w) = pyStrip m := by
  unfold pyStrip
  cases hm : pyStripLeft m with
  | nil =>
    unfold pyStripLeft at hm ⊢
    rw [List.dropWhile_append, if_pos (by rw [List.isEmpty_iff]; exact hm)]
    rw [show w.dropWhile pyIsSpace = [] from List.dropWhile_eq_nil_iff.2 h]
  | cons d t =>
    unfold pyStripLeft at hm ⊢
    rw [List.dropWhile_append, if_neg (by rw [List.isEmpty_iff, hm]; simp)]
    rw [hm, pyStripRight_append_ws _ _ h]

theorem isMeta_append_ws (l w : List Char)
    (h : ∀ c ∈ w, pyIsSpace c = true) :
    isMeta (l ++ w) = isMeta l := by
  unfold isMeta
  rw [pyStrip_append_ws _ _ h]

theorem pyStrip_all_ws (l : List Char) (h : ∀ c ∈ l, pyIsSpace c = true) :
    pyStrip l = [] := by
  unfold pyStrip pyStripLeft
  rw [List.dropWhile_eq_nil_iff.2 h]
  rfl

theorem isMeta_all_ws (l : List Char) (h : ∀ c ∈ l, pyIsSpace c = true) :
    isMeta l = false := by
  unfold isMeta
  rw [pyStrip_all_ws l h]
  decide

theorem isMetaCore_hash (w : List Char) : isMetaCore ('#' :: w) = false := by
  have h1 : "this ".data.isPrefixOf ('#' :: w) = false := rfl
  have h2 : "the ".data.isPrefixOf ('#' :: w) = false := rfl
  have h3 : "here".data.isPrefixOf ('#' :: w) = false := rfl
  simp [isMetaCore, metaPatterns, h1, h2, h3]

theorem isMeta_hash_cons (l : List Char) : isMeta ('#' :: l) = false := by
  unfold isMeta
  rw [pyStrip_cons_not_space _ (by decide), List.map_cons]
  rw [show asciiLower '#' = '#' from rfl]
  exact isMetaCore_hash _

theorem splitNl_append_nl : ∀ (q r : List Char),
    splitNl (q ++ '\n' :: r) = splitNl q ++ splitNl r := by
  intro q r
  induction q with
  | nil =>
    rw [List.nil_append, splitNl_cons_nl]
    rfl
  | cons a q' ih =>
    by_cases ha : a = '\n'
    · subst ha
      rw [List.cons_append, splitNl_cons_nl, ih, splitNl_cons_nl]
      rfl
    · cases hs : splitNl q' with
      | nil => exact absurd hs (splitNl_ne_nil q')
      | cons l0 ls =>
        rw [List.cons_append]
        rw [splitNl_cons_of_ne _ ha
          (show splitNl (q' ++ '\n' :: r) = l0 :: (ls ++ splitNl r) from by
            rw [ih, hs]
            rfl)]
        rw [splitNl_cons_of_ne q' ha hs]
        rfl

theorem mem_tail_mem {α : Type} {l : List α} {x : α} (h : x ∈ l.tail) :
    x ∈ l := (List.tail_sublist l).subset h

theorem linesOk_iff (u : List Char) :
    linesOk u ↔ isMeta (firstLine u) = false ∧ tailLinesOk u := by
  obtain ⟨ls, hs⟩ := splitNl_head u
  constructor
  · intro h
    refine ⟨h _ (by rw [hs]; exact List.mem_cons_self _ _), ?_⟩
    intro l hl
    exact h l (mem_tail_mem hl)
  · rintro ⟨hh, ht⟩
    intro l hl
    rw [hs] at hl
    rcases List.mem_cons.1 hl with h1 | h1
    · subst h1
      exact hh
    · exact ht l (by rw [hs]; exact h1)

theorem tailLinesOk_cons_of_ne {c : Char} (u : List Char) (hc : c ≠ '\n') :
    tailLinesOk (c :: u) ↔ tailLinesOk u := by
  cases hs : splitNl u with
  | nil => exact absurd hs (splitNl_ne_nil u)
  | cons l0 ls =>
    unfold tailLinesOk
    rw [splitNl_cons_of_ne u hc hs, hs]
    exact Iff.rfl

theorem tailLinesOk_cons_nl (u : List Char) :
    tailLinesOk ('\n' :: u) ↔ linesOk u := by
  unfold tailLinesOk linesOk
  rw [splitNl_cons_nl]
  rfl

theorem firstLine_append_no_nl (v w : List Char) (hv : '\n' ∉ v) :
    firstLine (v ++ w) = v ++ firstLine w := by
  induction v with
  | nil => rfl
  | cons a v' ih =>
    have ha : a ≠ '\n' := fun h => hv (h ▸ List.mem_cons_self a v')
    rw [List.cons_append]
    unfold firstLine
    rw [List.takeWhile_cons, if_pos (by simpa using ha)]
    rw [show (v' ++ w).takeWhile (fun c => decide (c ≠ '\n')) =
      firstLine (v' ++ w) from rfl]
    rw [ih (fun h => hv (List.mem_cons_of_mem a h))]
    rfl

theorem firstLine_append_mem_nl (v w : List Char) (hv : '\n' ∈ v) :
    firstLine (v ++ w) = firstLine v := by
  induction v with
  | nil => exact absurd hv (List.not_mem_nil _)
  | cons a v' ih =>
    by_cases ha : a = '\n'
    · subst ha
      unfold firstLine
      rw [List.cons_append, List.takeWhile_cons, List.takeWhile_cons]
      simp
    · have hv' : '\n' ∈ v' := by
        rcases List.mem_cons.1 hv with h1 | h1
        · exact absurd h1.symm ha
        · exact h1
      rw [List.cons_append]
      unfold firstLine
      rw [List.takeWhile_cons, List.takeWhile_cons,
        if_pos (by simpa using ha), if_pos (by simpa using ha)]
      rw [show (v' ++ w).takeWhile (fun c => decide (c ≠ '\n')) =
        firstLine (v' ++ w) from rfl]
      rw [ih hv']
      rfl

theorem headOk_append_ws (v w : List Char) (hw : ∀ c ∈ w, pyIsSpace c = true)
    (h : isMeta (firstLine (v ++ w)) = false) :
    isMeta (firstLine v) = false := by
  by_cases hv : '\n' ∈ v
  · rwa [firstLine_append_mem_nl v w hv] at h
  · rw [firstLine_append_no_nl v w hv] at h
    have hfv : firstLine v = v := by
      apply takeWhile_eq_self_of_forall
      intro c hc
      simp only [decide_eq_true_eq]
      intro he
      exact hv (he ▸ hc)
    rw [hfv]
    rw [← isMeta_append_ws v (firstLine w)
      (fun c hc => hw c ((List.takeWhile_sublist _).subset hc))]
    exact h

theorem tailLinesOk_append_ws : ∀ (v w : List Char),
    (∀ c ∈ w, pyIsSpace c = true) → tailLinesOk (v ++ w) → tailLinesOk v := by
  intro v
  induction v with
  | nil =>
    intro w hw _
    intro l hl
    simp [splitNl] at hl
  | cons c v' ih =>
    intro w hw h
    rw [List.cons_append] at h
    by_cases hc : c = '\n'
    · subst hc
      rw [tailLinesOk_cons_nl] at h ⊢
      rw [linesOk_iff] at h ⊢
      exact ⟨headOk_append_ws v' w hw h.1, ih w hw h.2⟩
    · rw [tailLinesOk_cons_of_ne _ hc] at h ⊢
      exact ih w hw h

theorem linesOk_append_ws (v w : List Char)
    (hw : ∀ c ∈ w, pyIsSpace c = true) (h : linesOk (v ++ w)) : linesOk v := by
  rw [linesOk_iff] at h ⊢
  exact ⟨headOk_append_ws v w hw h.1, tailLinesOk_append_ws v w hw h.2⟩

theorem linesOk_ws_append : ∀ (w r : List Char),
    (∀ c ∈ w, pyIsSpace c = true) → linesOk (w ++ r) → linesOk r := by
  intro w
  induction w with
  | nil => intro r _ h; exact h
  | cons c w' ih =>
    intro r hw h
    rw [List.cons_append] at h
    have hcw : pyIsSpace c = true := hw c (List.mem_cons_self c w')
    have hw' : ∀ d ∈ w', pyIsSpace d = true :=
      fun d hd => hw d (List.mem_cons_of_mem c hd)
    by_cases hc : c = '\n'
    · subst hc
      apply ih r hw'
      rw [linesOk_iff] at h
      rw [← tailLinesOk_cons_nl]
      exact h.2
    · apply ih r hw'
      rw [linesOk_iff] at h ⊢
      obtain ⟨hh, ht⟩ := h
      refine ⟨?_, (tailLinesOk_cons_of_ne _ hc).1 ht⟩
      have hfl : firstLine (c :: (w' ++ r)) = c :: firstLine (w' ++ r) := by
        unfold firstLine
        rw [List.takeWhile_cons, if_pos (by simpa using hc)]
      rw [hfl, isMeta_ws_cons _ hcw] at hh
      exact hh

theorem pyStripRight_decomp (v : List Char) :
    v = pyStripRight v ++ (v.reverse.takeWhile pyIsSpace).reverse := by
  conv_lhs => rw [show v = v.reverse.reverse from (List.reverse_reverse v).symm]
  unfold pyStripRight
  rw [← List.reverse_append, List.takeWhile_append_dropWhile]

theorem linesOk_pyStrip (u : List Char) (h : linesOk u) :
    linesOk (pyStrip u) := by
  have h1 : linesOk (pyStripLeft u) := by
    apply linesOk_ws_append (u.takeWhile pyIsSpace) (pyStripLeft u)
    · exact fun c hc => List.mem_takeWhile_imp hc
    · show linesOk (u.takeWhile pyIsSpace ++ u.dropWhile pyIsSpace)
      rw [List.takeWhile_append_dropWhile]
      exact h
  apply linesOk_append_ws (pyStrip u)
    ((pyStripLeft u).reverse.takeWhile pyIsSpace).reverse
  · intro c hc
    rw [List.mem_reverse] at hc
    exact List.mem_takeWhile_imp hc
  · show linesOk (pyStripRight (pyStripLeft u) ++
      ((pyStripLeft u).reverse.takeWhile pyIsSpace).reverse)
    rw [← pyStripRight_decomp (pyStripLeft u)]
    exact h1

theorem afterNlRun_length_le (cs : List Char) :
    (afterNlRun cs).length ≤ cs.length := by
  obtain ⟨p, _, hdec⟩ := afterNlRun_decomp cs
  have : cs.length = p.length + (afterNlRun cs).length := by
    conv_lhs => rw [hdec]
    rw [List.length_append]
  omega

theorem isMeta_nil : isMeta [] = false := by decide

theorem tailLinesOk_collapseFuel : ∀ (f : ℕ) (cs : List Char), cs.length < f →
    tailLinesOk cs → tailLinesOk (collapseFuel f cs) := by
  intro f
  induction f with
  | zero => intro cs h; omega
  | succ f ih =>
    intro cs h hQ
    cases cs with
    | nil => exact hQ
    | cons c cs' =>
      have hlt : cs'.length < f := by
        simp only [List.length_cons] at h
        omega
      simp only [collapseFuel]
      split
      · next hcnd =>
        rw [Bool.and_eq_true] at hcnd
        have hcn : c = '\n' := by simpa using hcnd.1
        have hcount : 2 ≤ (cs'.takeWhile pyIsSpace).count '\n' := by
          simpa using hcnd.2
        subst hcn
        rw [tailLinesOk_cons_nl] at hQ
        rw [tailLinesOk_cons_nl, linesOk_iff]
        constructor
        · rw [show firstLine ('\n' :: collapseFuel f (afterNlRun cs')) = []
            from by unfold firstLine; rw [List.takeWhile_cons]; simp]
          exact isMeta_nil
        · rw [tailLinesOk_cons_nl, linesOk_iff]
          obtain ⟨q, hq⟩ := afterNlRun_decomp_nl cs' (by omega)
          have hrest : ∀ l ∈ splitNl (afterNlRun cs'), isMeta l = false := by
            intro l hl
            apply hQ
            rw [hq, splitNl_append_nl]
            exact List.mem_append_right _ hl
          have hlen2 : (afterNlRun cs').length < f :=
            Nat.lt_of_le_of_lt (afterNlRun_length_le cs') hlt
          constructor
          · rw [collapseFuel_firstLine f (afterNlRun cs') hlen2]
            obtain ⟨ls2, hs2⟩ := splitNl_head (afterNlRun cs')
            exact hrest _ (by rw [hs2]; exact List.mem_cons_self _ _)
          · apply ih (afterNlRun cs') hlen2
            intro l hl
            exact hrest l (mem_tail_mem hl)
      · by_cases hcn : c = '\n'
        · subst hcn
          rw [tailLinesOk_cons_nl] at hQ ⊢
          rw [linesOk_iff]
          constructor
          · rw [collapseFuel_firstLine f cs' hlt]
            obtain ⟨ls2, hs2⟩ := splitNl_head cs'
            exact hQ _ (by rw [hs2]; exact List.mem_cons_self _ _)
          · apply ih cs' hlt
            intro l hl
            exact hQ l (mem_tail_mem hl)
        · rw [tailLinesOk_cons_of_ne _ hcn] at hQ ⊢
          exact ih cs' hlt hQ

theorem linesOk_collapseBlank (cs : List Char) (h : linesOk cs) :
    linesOk (collapseBlank cs) := by
  rw [linesOk_iff] at h ⊢
  refine ⟨?_, tailLinesOk_collapseFuel _ cs (by omega) h.2⟩
  rw [collapseBlank_firstLine]
  exact h.1

theorem pyStripLeft_eq_self {u : List Char}
    (h : ∀ c r, u = c :: r → pyIsSpace c = false) : pyStripLeft u = u := by
  cases u with
  | nil => rfl
  | cons c r => exact pyStripLeft_cons_not_space r (h c r rfl)

theorem pyStrip_eq_self {u : List Char}
    (hh : ∀ c r, u = c :: r → pyIsSpace c = false)
    (hl : ∀ c, u.getLast? = some c → pyIsSpace c = false) : pyStrip u = u := by
  unfold pyStrip
  rw [pyStripLeft_eq_self hh, pyStripRight_eq_self hl]

theorem nl_is_space : pyIsSpace '\n' = true := by decide

theorem pyStrip_collapseBlank (u : List Char) :
    pyStrip (collapseBlank (pyStrip u)) = collapseBlank (pyStrip u) := by
  apply pyStrip_eq_self
  · intro c r hcr
    cases hs : pyStrip u with
    | nil =>
      rw [hs] at hcr
      rw [show collapseBlank [] = [] from rfl] at hcr
      cases hcr
    | cons a t =>
      have ha : pyIsSpace a = false := pyStrip_head_not_space hs
      have han : a ≠ '\n' := by
        intro he
        rw [he, nl_is_space] at ha
        cases ha
      rw [hs, collapseBlank_cons_not_nl t han] at hcr
      cases hcr
      exact ha
  · intro c hc
    rw [collapseBlank_getLast? (pyStrip u)
      (fun d hd => pyStrip_getLast_not_space hd)] at hc
    exact pyStrip_getLast_not_space hc

theorem cleanChars_eq_of_promote (x : List Char)
    (hcond : ("# ".data.isPrefixOf
        (pyStrip (firstLine (pyStrip (metaFiltered (fenceStripped x))))) &&
      !("## ".data.isPrefixOf
        (pyStrip (firstLine (pyStrip (metaFiltered (fenceStripped x))))))) = true) :
    cleanChars x =
      '#' :: collapseBlank (pyStrip (metaFiltered (fenceStripped x))) := by
  obtain ⟨ls, hsplit⟩ := splitNl_head (pyStrip (metaFiltered (fenceStripped x)))
  have hjoin : joinNl (promoteHeading
      (splitNl (pyStrip (metaFiltered (fenceStripped x))))) =
      '#' :: pyStrip (metaFiltered (fenceStripped x)) := by
    rw [hsplit]
    simp only [promoteHeading]
    rw [if_pos hcond, joinNl_cons_cons, ← hsplit, joinNl_splitNl]
  have hsws : ∀ c, (pyStrip (metaFiltered (fenceStripped x))).getLast? = some c →
      pyIsSpace c = false := fun c hc => pyStrip_getLast_not_space hc
  have hsr : pyStripRight (collapseBlank (pyStrip (metaFiltered
      (fenceStripped x)))) = collapseBlank (pyStrip (metaFiltered
      (fenceStripped x))) := by
    apply pyStripRight_eq_self
    intro c hc
    rw [collapseBlank_getLast? _ hsws] at hc
    exact hsws c hc
  unfold cleanChars
  rw [hjoin, collapseBlank_cons_not_nl _ (by decide),
    pyStrip_cons_not_space _ (by decide), hsr]

theorem cleanChars_eq_of_not_promote (x : List Char)
    (hcond : ("# ".data.isPrefixOf
        (pyStrip (firstLine (pyStrip (metaFiltered (fenceStripped x))))) &&
      !("## ".data.isPrefixOf
        (pyStrip (firstLine (pyStrip (metaFiltered (fenceStripped x))))))) = false) :
    cleanChars x = collapseBlank (pyStrip (metaFiltered (fenceStripped x))) := by
  obtain ⟨ls, hsplit⟩ := splitNl_head (pyStrip (metaFiltered (fenceStripped x)))
  have hjoin : joinNl (promoteHeading
      (splitNl (pyStrip (metaFiltered (fenceStripped x))))) =
      pyStrip (metaFiltered (fenceStripped x)) := by
    rw [hsplit]
    simp only [promoteHeading]
    rw [if_neg (by rw [hcond]; simp), ← hsplit, joinNl_splitNl]
  unfold cleanChars
  rw [hjoin]
  exact pyStrip_collapseBlank _

theorem not_nl_mem_splitNl : ∀ (u : List Char) (l : List Char),
    l ∈ splitNl u → '\n' ∉ l := by
  intro u
  induction u with
  | nil =>
    intro l hl
    simp only [splitNl, List.mem_singleton] at hl
    subst hl
    exact List.not_mem_nil _
  | cons a u' ih =>
    intro l hl
    by_cases ha : a = '\n'
    · subst ha
      rw [splitNl_cons_nl] at hl
      rcases List.mem_cons.1 hl with h1 | h1
      · subst h1
        exact List.not_mem_nil _
      · exact ih l h1
    · cases hs : splitNl u' with
      | nil => exact absurd hs (splitNl_ne_nil u')
      | cons l0 ls =>
        rw [splitNl_cons_of_ne u' ha hs] at hl
        rcases List.mem_cons.1 hl with h1 | h1
        · subst h1
          intro hmem
          rcases List.mem_cons.1 hmem with h2 | h2
          · exact ha h2.symm
          · exact ih l0 (by rw [hs]; exact List.mem_cons_self l0 ls) h2
        · exact ih l (by rw [hs]; exact List.mem_cons_of_mem l0 h1)

theorem splitNl_no_nl (l : List Char) (h : '\n' ∉ l) : splitNl l = [l] := by
  induction l with
  | nil => rfl
  | cons a t ih =>
    have ha : a ≠ '\n' := fun he => h (he ▸ List.mem_cons_self a t)
    rw [splitNl_cons_of_ne t ha (ih (fun hm => h (List.mem_cons_of_mem a hm)))]

theorem splitNl_joinNl : ∀ (ls : List (List Char)), ls ≠ [] →
    (∀ l ∈ ls, '\n' ∉ l) → splitNl (joinNl ls) = ls := by
  intro ls
  induction ls with
  | nil => intro h; exact absurd rfl h
  | cons l rest ih =>
    intro _ hnl
    cases rest with
    | nil =>
      exact splitNl_no_nl l (hnl l (List.mem_cons_self l []))
    | cons l2 rest2 =>
      rw [show joinNl (l :: l2 :: rest2) = l ++ '\n' :: joinNl (l2 :: rest2)
        from rfl]
      rw [splitNl_append_nl, splitNl_no_nl l (hnl l (List.mem_cons_self l _)),
        ih (by simp) (fun l' hl' => hnl l' (List.mem_cons_of_mem l hl'))]
      rfl

theorem linesOk_metaFiltered (u : List Char) : linesOk (metaFiltered u) := by
  unfold metaFiltered
  intro l hl
  cases hkept : (splitNl u).filter (fun l => !(isMeta l)) with
  | nil =>
    rw [hkept] at hl
    simp only [joinNl, splitNl, List.mem_singleton] at hl
    subst hl
    exact isMeta_nil
  | cons k ks =>
    rw [hkept] at hl
    rw [splitNl_joinNl (k :: ks) (by simp) (by
      intro l' hl'
      exact not_nl_mem_splitNl u l'
        (List.mem_of_mem_filter (hkept ▸ hl')))] at hl
    have := List.of_mem_filter (hkept ▸ hl)
    simpa using this

theorem pass2_fixed (y : List Char)
    (hbt : '`' ∉ y) (hQy : linesOk y) (hstrip : pyStrip y = y)
    (hcb : collapseBlank y = y)
    (hpr : promoteHeading (splitNl y) = splitNl y) :
    cleanChars y = y := by
  unfold cleanChars
  rw [fenceStripped_id_no_bt y hbt]
  rw [show metaFiltered y = y from by
    unfold metaFiltered
    rw [List.filter_eq_self.2 (fun l hl => by simp [hQy l hl]), joinNl_splitNl]]
  rw [hstrip, hpr, joinNl_splitNl, hcb, hstrip]

theorem firstLine_shape (u : List Char) (c : Char) (r : List Char)
    (h : firstLine u = c :: r) : ∃ t, u = c :: t := by
  cases u with
  | nil => simp [firstLine] at h
  | cons a t =>
    refine ⟨t, ?_⟩
    unfold firstLine at h
    rw [List.takeWhile_cons] at h
    split at h
    · injection h with ha _
      rw [ha]
    · simp at h

theorem string_mk_data (l : List Char) : (String.mk l : String).data = l := rfl

theorem cleanChars_idem (cs : List Char) (hbt : '`' ∉ cs) :
    cleanChars (cleanChars cs) = cleanChars cs := by
  have hbty : '`' ∉ cleanChars cs := cleanChars_no_bt cs hbt
  obtain ⟨s, hs⟩ : ∃ s, pyStrip (metaFiltered (fenceStripped cs)) = s := ⟨_, rfl⟩
  have hQs : linesOk s := hs ▸ linesOk_pyStrip _ (linesOk_metaFiltered _)
  have hlast : ∀ c, s.getLast? = some c → pyIsSpace c = false := by
    intro c hc
    exact pyStrip_getLast_not_space (by rw [hs]; exact hc)
  have hflhead : ∀ c r, firstLine s = c :: r → pyIsSpace c = false := by
    intro c r h
    exact firstLine_pyStrip_head (metaFiltered (fenceStripped cs)) c r
      (by rw [hs]; exact h)
  have hstrip_s : pyStrip (collapseBlank s) = collapseBlank s := by
    rw [← hs]
    exact pyStrip_collapseBlank _
  have hQv : linesOk (collapseBlank s) := linesOk_collapseBlank _ hQs
  have hTv : hasTriple (collapseBlank s) = false :=
    (collapseFuel_no_hasTriple _ _ (by omega)).1
  have hcbv : collapseBlank (collapseBlank s) = collapseBlank s := by
    unfold collapseBlank
    exact collapseFuel_of_not_hasTriple _ _ (by omega) hTv
  have hlastv : ∀ c, (collapseBlank s).getLast? = some c →
      pyIsSpace c = false := by
    intro c hc
    rw [collapseBlank_getLast? s hlast] at hc
    exact hlast c hc
  by_cases hcond : ("# ".data.isPrefixOf (pyStrip (firstLine s)) &&
      !("## ".data.isPrefixOf (pyStrip (firstLine s)))) = true
  · have hform : cleanChars cs = '#' :: collapseBlank s := by
      have h0 := cleanChars_eq_of_promote cs (by rw [hs]; exact hcond)
      rw [hs] at h0
      exact h0
    have hA : "# ".data.isPrefixOf (pyStrip (firstLine s)) = true := by
      have h2 := hcond
      rw [Bool.and_eq_true] at h2
      exact h2.1
    have hl0p : "# ".data <+: firstLine s :=
      (List.isPrefixOf_iff_prefix.1 hA).trans
        (pyStrip_prefix_of_head_not_space _ hflhead)
    obtain ⟨t0, ht0⟩ := hl0p
    have hl0 : firstLine s = '#' :: ' ' :: t0 := by
      rw [← ht0]
      rfl
    obtain ⟨srest, hsrest⟩ := firstLine_shape s '#' (' ' :: t0) hl0
    have hvform : collapseBlank s = '#' :: collapseBlank srest := by
      rw [hsrest]
      exact collapseBlank_cons_not_nl srest (by decide)
    have hvne : collapseBlank s ≠ [] := by
      rw [hvform]
      simp
    have hQy : linesOk (cleanChars cs) := by
      rw [hform]
      intro l hl
      cases hsv : splitNl (collapseBlank s) with
      | nil => exact absurd hsv (splitNl_ne_nil _)
      | cons lv lsv =>
        rw [splitNl_cons_of_ne _ (by decide) hsv] at hl
        rcases List.mem_cons.1 hl with h1 | h1
        · subst h1
          exact isMeta_hash_cons lv
        · exact hQv l (by rw [hsv]; exact List.mem_cons_of_mem lv h1)
    have f3 : pyStrip (cleanChars cs) = cleanChars cs := by
      rw [hform]
      apply pyStrip_eq_self
      · intro c r hcr
        cases hcr
        decide
      · intro c hc
        rw [getLast?_cons_of_ne_nil _ hvne] at hc
        exact hlastv c hc
    have hfl_y : firstLine (cleanChars cs) = '#' :: '#' :: ' ' :: t0 := by
      rw [hform]
      unfold firstLine
      rw [List.takeWhile_cons, if_pos (by decide)]
      rw [show (collapseBlank s).takeWhile (fun c => decide (c ≠ '\n')) =
        firstLine (collapseBlank s) from rfl]
      rw [collapseBlank_firstLine, hl0]
    obtain ⟨lsy, hsy⟩ := splitNl_head (cleanChars cs)
    have f4 : promoteHeading (splitNl (cleanChars cs)) =
        splitNl (cleanChars cs) := by
      rw [hsy]
      simp only [promoteHeading]
      rw [if_neg (by
        rw [hfl_y, pyStrip_cons_not_space _ (by decide),
          pyStripRight_cons_not_space _ (by decide)]
        simp)]
    have f6 : collapseBlank (cleanChars cs) = cleanChars cs := by
      rw [hform, collapseBlank_cons_not_nl _ (by decide), hcbv]
    exact pass2_fixed _ hbty hQy f3 f6 f4
  · have hform : cleanChars cs = collapseBlank s := by
      have h0 := cleanChars_eq_of_not_promote cs (by
        rw [hs]
        rw [Bool.eq_false_iff]
        exact hcond)
      rw [hs] at h0
      exact h0
    have hQy : linesOk (cleanChars cs) := by
      rw [hform]
      exact hQv
    have f3 : pyStrip (cleanChars cs) = cleanChars cs := by
      rw [hform]
      exact hstrip_s
    have hfl : firstLine (cleanChars cs) = firstLine s := by
      rw [hform, collapseBlank_firstLine]
    obtain ⟨lsy, hsy⟩ := splitNl_head (cleanChars cs)
    have f4 : promoteHeading (splitNl (cleanChars cs)) =
        splitNl (cleanChars cs) := by
      rw [hsy]
      simp only [promoteHeading]
      rw [if_neg (by
        rw [hfl]
        intro hcc
        exact hcond hcc)]
    have f6 : collapseBlank (cleanChars cs) = cleanChars cs := by
      rw [hform]
      exact hcbv
    exact pass2_fixed _ hbty hQy f3 f6 f4

/-- **C2, amended.** The content cleaner is idempotent on every input that
contains no backquote character: with no fence markers present the three
fence-stripping passes are the identity, every surviving line stays free of
meta-comments, the heading promotion cannot re-fire, and the blank-line
collapse and strip are fixed points of the first pass's output. -/
theorem clean_idempotent_no_backtick (s : String) (h : '`' ∉ s.data) :
    clean_section_content (clean_section_content s) = clean_section_content s := by
  unfold clean_section_content
  rw [string_mk_data, cleanChars_idem s.data h]

/-- Witness for the amended C2 at a concrete backtick-free input. -/
theorem clean_idempotent_no_backtick_witness :
    ('`' ∉ ("# Title\n\n\n\nThis grand revision\nBody" : String).data) ∧
    clean_section_content (clean_section_content
      "# Title\n\n\n\nThis grand revision\nBody") =
    clean_section_content "# Title\n\n\n\nThis grand revision\nBody" :=
  ⟨by decide, clean_idempotent_no_backtick
    "# Title\n\n\n\nThis grand revision\nBody" (by decide)⟩

end GuideCreator
